import Mathlib

/-!
# Directed graph with BFS and path reconstruction (`graph.c`)

A shallow embedding of `graph.c`: the growable key vector, the node array,
`dg_add_node`, `dg_add_edge`, the accessors, `dg_bfs` with its circular queue
and `dg_build_path`.

Conventions of the embedding.
* `gkey_t` (`uint64_t`) is `Nat`: keys are only compared for equality.
* `int` indices and the entries of `dist` and `parent` are `Int`; the
  sentinel is `-1`.  No arithmetic on them can leave the `int` range on a
  graph that fits in memory (every value is below the node count).
* `void *value` is an address, a `Nat`.
* An array is a `List`; the used prefix `nodes[0 .. n)` of the node array is
  the list `nodes`, so `g->n` is `nodes.length`.  Cells of a `malloc`ed array
  that have not been written are `none`.
* A failed `assert`, an access outside an array, a read of an unwritten cell
  and running out of loop fuel are the four values of `fault`.
-/

namespace DGraph

/-! ## Data model -/

abbrev gkey_t := Nat

inductive owner_t where
  | OWNER_LOCAL
  | OWNER_REMOTE
deriving DecidableEq, Repr

inductive fault where
  | assert_fail
  | out_of_bounds
  | uninit_read
  | out_of_fuel
deriving DecidableEq, Repr

/-- The struct `keyvec_t`: `len` is `data.length`. -/
structure keyvec_t where
  data : List gkey_t
  cap : Nat
deriving DecidableEq, Repr

/-- The struct `dnode_t`. -/
structure dnode_t where
  key : gkey_t
  value : Nat
  owner : owner_t
  out : keyvec_t
deriving DecidableEq, Repr

/-- The struct `dgraph_t`: `n` is `nodes.length`. -/
structure dgraph_t where
  nodes : List dnode_t
  cap : Nat
deriving DecidableEq, Repr

/-- The struct `bfs_result_t`. -/
structure bfs_result_t where
  dist : List Int
  parent : List Int
deriving DecidableEq, Repr

/-! ## Basic helpers -/

/-- The function `keyvec_push`: doubles the capacity (4 at first) when full. -/
def keyvec_push (v : keyvec_t) (x : gkey_t) : keyvec_t :=
  { data := v.data ++ [x]
    cap := if v.data.length = v.cap then (if v.cap ≠ 0 then v.cap * 2 else 4) else v.cap }

/-- The function `dg_new`. -/
def dg_new (cap_hint : Int) : dgraph_t :=
  { nodes := [], cap := if cap_hint > 0 then cap_hint.toNat else 8 }

/-- Linear scan shared by `dg_find_index` and `key_to_idx`:
`for (i..) if (nodes[i].key == key) return i; return -1;` started at index `i`. -/
def scan_from : List dnode_t → Nat → gkey_t → Int
  | [], _, _ => -1
  | nd :: rest, i, key => if nd.key = key then (i : Int) else scan_from rest (i + 1) key

/-- The function `dg_find_index`. -/
def dg_find_index (g : dgraph_t) (key : gkey_t) : Int :=
  scan_from g.nodes 0 key

/-- The function `dg_grow`. -/
def dg_grow (g : dgraph_t) : dgraph_t :=
  { g with cap := if g.cap ≠ 0 then g.cap * 2 else 8 }

/-- The function `dg_add_node`: the new graph and the returned flag. -/
def dg_add_node (g : dgraph_t) (key : gkey_t) (value : Nat) (owner : owner_t) :
    dgraph_t × Int :=
  let ix := dg_find_index g key
  if 0 ≤ ix then
    match g.nodes[ix.toNat]? with
    | some nd =>
      ({ g with nodes := g.nodes.set ix.toNat { nd with value := value, owner := owner } }, 0)
    | none => (g, 0)
  else
    let g1 := if g.nodes.length = g.cap then dg_grow g else g
    ({ g1 with nodes := g1.nodes ++
        [{ key := key, value := value, owner := owner, out := { data := [], cap := 0 } }] }, 1)

/-- The function `dg_add_edge`. -/
def dg_add_edge (g : dgraph_t) (src dst : gkey_t) : Except fault dgraph_t :=
  let s := dg_find_index g src
  let d := dg_find_index g dst
  if 0 ≤ s ∧ 0 ≤ d then
    match g.nodes[s.toNat]? with
    | some nd => .ok { g with nodes := g.nodes.set s.toNat { nd with out := keyvec_push nd.out dst } }
    | none => .error .out_of_bounds
  else .error .assert_fail

/-- The function `dg_owner`. -/
def dg_owner (g : dgraph_t) (key : gkey_t) : Except fault owner_t :=
  let i := dg_find_index g key
  if 0 ≤ i then
    match g.nodes[i.toNat]? with
    | some nd => .ok nd.owner
    | none => .error .out_of_bounds
  else .error .assert_fail

/-- The function `dg_value`. -/
def dg_value (g : dgraph_t) (key : gkey_t) : Except fault Nat :=
  let i := dg_find_index g key
  if 0 ≤ i then
    match g.nodes[i.toNat]? with
    | some nd => .ok nd.value
    | none => .error .out_of_bounds
  else .error .assert_fail

/-- The function `dg_children`: the returned flag and, when it is 1, the
sequence written through `out_keys` and `out_len`. -/
def dg_children (g : dgraph_t) (key : gkey_t) : Int × Option (List gkey_t) :=
  let i := dg_find_index g key
  if i < 0 then (0, none)
  else
    match g.nodes[i.toNat]? with
    | some nd => (1, some nd.out.data)
    | none => (0, none)

/-! ## BFS -/

/-- The function `key_to_idx`. -/
def key_to_idx (g : dgraph_t) (k : gkey_t) : Int :=
  scan_from g.nodes 0 k

/-- The variables of the queue loop of `dg_bfs`. -/
structure bfs_state where
  R : bfs_result_t
  q : List (Option Nat)
  head : Nat
  tail : Nat
deriving DecidableEq, Repr

/-- One pass of the body of the inner `for` loop of `dg_bfs`, for the node
`u` being expanded and the out-list entry `k`. -/
def bfs_visit (g : dgraph_t) (u : Nat) (st : bfs_state) (k : gkey_t) :
    Except fault bfs_state :=
  let v := key_to_idx g k
  if v < 0 then .ok st
  else
    match st.R.dist[v.toNat]? with
    | none => .error .out_of_bounds
    | some dv =>
      if dv = -1 then
        match st.R.dist[u]? with
        | none => .error .out_of_bounds
        | some du =>
          if v.toNat < st.R.parent.length ∧ st.tail < st.q.length then
            .ok { R := { dist := st.R.dist.set v.toNat (du + 1)
                         parent := st.R.parent.set v.toNat (u : Int) }
                  q := st.q.set st.tail (some v.toNat)
                  head := st.head
                  tail := if st.tail + 1 = g.nodes.length then 0 else st.tail + 1 }
          else .error .out_of_bounds
      else .ok st

/-- The inner `for` loop of `dg_bfs` over the out list of `u`. -/
def bfs_scan (g : dgraph_t) (u : Nat) : List gkey_t → bfs_state → Except fault bfs_state
  | [], st => .ok st
  | k :: ks, st =>
    match bfs_visit g u st k with
    | .error e => .error e
    | .ok st1 => bfs_scan g u ks st1

/-- The loop `while (head != tail)` of `dg_bfs`; `fuel` bounds the number of
iterations. -/
def bfs_loop (g : dgraph_t) : Nat → bfs_state → Except fault bfs_state
  | fuel, st =>
    if st.head = st.tail then .ok st
    else
      match fuel with
      | 0 => .error .out_of_fuel
      | fuel + 1 =>
        match st.q[st.head]? with
        | none => .error .out_of_bounds
        | some none => .error .uninit_read
        | some (some u) =>
          match g.nodes[u]? with
          | none => .error .out_of_bounds
          | some nd =>
            match bfs_scan g u nd.out.data
                { st with head := if st.head + 1 = g.nodes.length then 0 else st.head + 1 } with
            | .error e => .error e
            | .ok st1 => bfs_loop g fuel st1

/-- The state on entry to the queue loop: every entry `-1`, then
`R.dist[src]=0; R.parent[src]=src; q[tail++]=src;` (no wrap of `tail`). -/
def bfs_init (g : dgraph_t) (src : Nat) : bfs_state :=
  { R := { dist := (List.replicate g.nodes.length (-1 : Int)).set src 0
           parent := (List.replicate g.nodes.length (-1 : Int)).set src (src : Int) }
    q := (List.replicate g.nodes.length (none : Option Nat)).set 0 (some src)
    head := 0
    tail := 1 }

/-- The function `dg_bfs`. -/
def dg_bfs (fuel : Nat) (g : dgraph_t) (src_key : gkey_t) : Except fault bfs_result_t :=
  let src := key_to_idx g src_key
  if src < 0 then .error .assert_fail
  else
    match bfs_loop g fuel (bfs_init g src.toNat) with
    | .error e => .error e
    | .ok st => .ok st.R

/-! ## Path reconstruction -/

/-- The `for` loop of `dg_build_path` that follows the parent entries from
`v`; `room` is the number of free cells left in `tmp` (which has `g->n`).
A read of `parent` outside the array, a read of `nodes` outside the used
prefix `nodes[0 .. n)` and a write past the end of `tmp` are faults. -/
def path_walk (g : dgraph_t) (parent : List Int) :
    Nat → Int → List gkey_t → Except fault (List gkey_t)
  | room, v, tmp =>
    if v = -1 then .ok tmp
    else
      match (if 0 ≤ v then parent[v.toNat]? else none) with
      | none => .error .out_of_bounds
      | some p =>
        if v = p then .ok tmp
        else
          match room with
          | 0 => .error .out_of_bounds
          | room + 1 =>
            match g.nodes[v.toNat]? with
            | none => .error .out_of_bounds
            | some nd => path_walk g parent room p (tmp ++ [nd.key])

/-- The function `dg_build_path`.  The result `none` is the return value
`NULL` with `*out_len = 0`; `some path` is the returned array with
`*out_len = path.length`.  The argument `R` is `none` for a null pointer. -/
def dg_build_path (g : dgraph_t) (src_key dst_key : gkey_t) (R : Option bfs_result_t) :
    Except fault (Option (List gkey_t)) :=
  let src := key_to_idx g src_key
  let dst := key_to_idx g dst_key
  if src < 0 ∨ dst < 0 then .ok none
  else
    match R with
    | none => .ok none
    | some R =>
      match path_walk g R.parent g.nodes.length dst [] with
      | .error e => .error e
      | .ok tmp =>
        if tmp.length < g.nodes.length then
          match g.nodes[src.toNat]? with
          | none => .error .out_of_bounds
          | some nd =>
            let path := (tmp ++ [nd.key]).reverse
            if path.head? ≠ some src_key then .ok none else .ok (some path)
        else .error .out_of_bounds

/-! ## Example graphs -/

/-- A node with no out edges. -/
def mk_node (key : gkey_t) : dnode_t :=
  { key := key, value := 0, owner := .OWNER_LOCAL, out := { data := [], cap := 0 } }

/-- The graph of `demo.c`. -/
def demo_graph : Except fault dgraph_t := do
  let g := dg_new 8
  let g := (dg_add_node g 0 111 .OWNER_LOCAL).1
  let g := (dg_add_node g 1 222 .OWNER_REMOTE).1
  let g := (dg_add_node g 2 333 .OWNER_LOCAL).1
  let g := (dg_add_node g 3 444 .OWNER_REMOTE).1
  let g := (dg_add_node g 4 555 .OWNER_LOCAL).1
  let g := (dg_add_node g 5 666 .OWNER_REMOTE).1
  let g ← dg_add_edge g 0 1
  let g ← dg_add_edge g 0 2
  let g ← dg_add_edge g 1 3
  let g ← dg_add_edge g 2 3
  let g ← dg_add_edge g 3 4
  let g ← dg_add_edge g 4 5
  pure g

/-- Equality of results is decidable, so that a run on a concrete graph can be
compared with its expected result. -/
instance exceptDecEq {α : Type} [DecidableEq α] : DecidableEq (Except fault α)
  | .ok a, .ok b =>
    if h : a = b then isTrue (by rw [h]) else isFalse (by intro e; cases e; exact h rfl)
  | .error a, .error b =>
    if h : a = b then isTrue (by rw [h]) else isFalse (by intro e; cases e; exact h rfl)
  | .ok _, .error _ => isFalse (by intro e; cases e)
  | .error _, .ok _ => isFalse (by intro e; cases e)

/-- The graph that `demo_graph` returns. -/
def demo_g : dgraph_t :=
  match demo_graph with
  | .ok g => g
  | .error _ => dg_new 8

/-- The graph with the single node 7 and no edge. -/
def single_graph : dgraph_t := (dg_add_node (dg_new 8) 7 0 .OWNER_LOCAL).1

/-- The graph with the nodes 0 and 1 and no edge. -/
def two_graph : dgraph_t :=
  (dg_add_node (dg_add_node (dg_new 8) 0 0 .OWNER_LOCAL).1 1 0 .OWNER_LOCAL).1

/-- The graph with the nodes 0 and 1 and the edge 0 -> 1. -/
def edge_graph : dgraph_t :=
  match dg_add_edge two_graph 0 1 with
  | .ok g => g
  | .error _ => two_graph

/-! ## Specification vocabulary -/

/-- No two nodes of the graph have the same key. -/
def keys_distinct (g : dgraph_t) : Prop :=
  (g.nodes.map dnode_t.key).Nodup

instance (g : dgraph_t) : Decidable (keys_distinct g) :=
  inferInstanceAs (Decidable (g.nodes.map dnode_t.key).Nodup)

/-- The key `k` is the key of some node of the graph. -/
def has_key (g : dgraph_t) (k : gkey_t) : Prop :=
  ∃ nd ∈ g.nodes, nd.key = k

instance (g : dgraph_t) (k : gkey_t) : Decidable (has_key g k) :=
  inferInstanceAs (Decidable (∃ nd ∈ g.nodes, nd.key = k))

/-- There is an edge from the node at index `u` to the node at index `v`:
the key of `v` occurs in the out list of `u`. -/
def edge (g : dgraph_t) (u v : Nat) : Prop :=
  ∃ nu nv, g.nodes[u]? = some nu ∧ g.nodes[v]? = some nv ∧ nv.key ∈ nu.out.data

/-- A directed path of `k` edges from the node `s`: `walk g s v k`. -/
inductive walk (g : dgraph_t) (s : Nat) : Nat → Nat → Prop where
  | here : s < g.nodes.length → walk g s s 0
  | step {u v k : Nat} : walk g s u k → edge g u v → walk g s v (k + 1)

/-- The node `v` is reachable from `s` by a directed path. -/
def reachable (g : dgraph_t) (s v : Nat) : Prop := ∃ k, walk g s v k

/-- The pair of keys `(a, b)` is an edge: `b` occurs in the out list of a
node with key `a`. -/
def key_edge (g : dgraph_t) (a b : gkey_t) : Prop :=
  ∃ (i : Nat) (nd : dnode_t), g.nodes[i]? = some nd ∧ nd.key = a ∧ b ∈ nd.out.data

/-- The edge relation as `dg_bfs` sees it: some key of the out list of `u`
is resolved by `key_to_idx` to `v`. -/
def cedge (g : dgraph_t) (u v : Nat) : Prop :=
  ∃ nd k, g.nodes[u]? = some nd ∧ k ∈ nd.out.data ∧ key_to_idx g k = (v : Int)

/-- Paths along `cedge`. -/
inductive cwalk (g : dgraph_t) (s : Nat) : Nat → Nat → Prop where
  | here : s < g.nodes.length → cwalk g s s 0
  | step {u v k : Nat} : cwalk g s u k → cedge g u v → cwalk g s v (k + 1)

/-- The entry `dist[v]` of a loop state (`-1` outside the array). -/
def dv (st : bfs_state) (v : Nat) : Int := st.R.dist.getD v (-1)

/-- The entry `parent[v]` of a loop state (`-1` outside the array). -/
def pv (st : bfs_state) (v : Nat) : Int := st.R.parent.getD v (-1)

/-- The written content of the queue cell `i`, if any. -/
def qv (st : bfs_state) (i : Nat) : Option Nat := st.q.getD i none

/-! ## The invariant of the queue loop -/

/-- Invariant of the queue loop of `dg_bfs` started at the node `s`; `E` is
the number of nodes written to the queue so far. -/
structure Inv (g : dgraph_t) (s : Nat) (st : bfs_state) (E : Nat) : Prop where
  hs : s < g.nodes.length
  len_d : st.R.dist.length = g.nodes.length
  len_p : st.R.parent.length = g.nodes.length
  len_q : st.q.length = g.nodes.length
  E_pos : 1 ≤ E
  cnt : st.R.dist.countP (fun y => decide (y ≠ -1)) = E
  tail_eq : st.tail = if E = g.nodes.length then 0 else E
  q0 : qv st 0 = some s
  qhist : ∀ i, i < E → ∃ a, qv st i = some a ∧ dv st a ≠ -1
  qinj : ∀ i j a, i < E → j < E → qv st i = some a → qv st j = some a → i = j
  v2q : ∀ v, dv st v ≠ -1 → ∃ i, i < E ∧ qv st i = some v
  mono : ∀ i j a b, i ≤ j → j < E → qv st i = some a → qv st j = some b → dv st a ≤ dv st b
  src_d : dv st s = 0
  src_p : pv st s = (s : Int)
  sound : ∀ v, dv st v ≠ -1 → ∃ d : Nat, dv st v = (d : Int) ∧ cwalk g s v d ∧ d < E
  par : ∀ v, dv st v ≠ -1 → v ≠ s → ∃ (p i : Nat), pv st v = (p : Int) ∧ i < E ∧ qv st i = some p ∧
    cedge g p v ∧ dv st v = dv st p + 1 ∧ ∀ j w, j < i → qv st j = some w → ¬ cedge g w v
  unv : ∀ v, dv st v = -1 → pv st v = -1

/-- Every out edge of the first `P` queue entries leads to a visited node at
most one level deeper. -/
def closed_upto (g : dgraph_t) (st : bfs_state) (P : Nat) : Prop :=
  ∀ i a, i < P → qv st i = some a → ∀ w, cedge g a w → dv st w ≠ -1 ∧ dv st w ≤ dv st a + 1

/-- Invariant of the inner loop while the node `u`, the queue entry number
`D - 1`, is expanded. -/
structure Inner (g : dgraph_t) (s u D : Nat) (st : bfs_state) (E : Nat) : Prop where
  inv : Inv g s st E
  D_pos : 1 ≤ D
  D_le : D ≤ E
  cur : qv st (D - 1) = some u
  closed : closed_upto g st (D - 1)
  bound : ∀ j b, j < E → qv st j = some b → dv st b ≤ dv st u + 1
  head_eq : st.head = if D = g.nodes.length then 0 else D

/-- The state after the three writes and the queue push of the inner loop. -/
def enq_state (g : dgraph_t) (st : bfs_state) (u vn : Nat) : bfs_state :=
  { R := { dist := st.R.dist.set vn (dv st u + 1)
           parent := st.R.parent.set vn (u : Int) }
    q := st.q.set st.tail (some vn)
    head := st.head
    tail := if st.tail + 1 = g.nodes.length then 0 else st.tail + 1 }

/-- Invariant at the test of the queue loop; `D` is the number of nodes
taken from the queue so far. -/
structure Outer (g : dgraph_t) (s D : Nat) (st : bfs_state) (E : Nat) : Prop where
  inv : Inv g s st E
  D_le : D ≤ E
  closed : closed_upto g st D
  head_eq : st.head = if D = g.nodes.length then 0 else D
  bound : ∀ c, D < E → qv st D = some c → ∀ j b, j < E → qv st j = some b →
    dv st b ≤ dv st c + 1
  start : D = 0 → E < g.nodes.length

/-- What the final state of the queue loop satisfies. -/
structure Final (g : dgraph_t) (s : Nat) (st : bfs_state) : Prop where
  len_d : st.R.dist.length = g.nodes.length
  len_p : st.R.parent.length = g.nodes.length
  src_d : dv st s = 0
  src_p : pv st s = (s : Int)
  sound : ∀ v, dv st v ≠ -1 → ∃ d : Nat, dv st v = (d : Int) ∧ cwalk g s v d ∧
    d < g.nodes.length
  least : ∀ v k, cwalk g s v k → dv st v ≠ -1 ∧ dv st v ≤ (k : Int)
  par : ∀ v, dv st v ≠ -1 → v ≠ s → ∃ p : Nat, pv st v = (p : Int) ∧ dv st p ≠ -1 ∧
    cedge g p v ∧ dv st v = dv st p + 1
  unv : ∀ v, dv st v = -1 → pv st v = -1

/-! ## Graphs built through the interface -/

/-- The graph as a call of `dg_add_edge` leaves it in memory, with the fault
that ended the call, if any: the `assert` of line 89 is reached before the
only write, the `keyvec_push` of line 91. -/
def dg_add_edge_mem (g : dgraph_t) (src dst : gkey_t) : dgraph_t × Option fault :=
  let s := dg_find_index g src
  let d := dg_find_index g dst
  if 0 ≤ s ∧ 0 ≤ d then
    match g.nodes[s.toNat]? with
    | some nd =>
      ({ g with nodes := g.nodes.set s.toNat { nd with out := keyvec_push nd.out dst } }, none)
    | none => (g, some .out_of_bounds)
  else (g, some .assert_fail)

/-- The graphs obtained from `dg_new` by calls of `dg_add_node` and
successful calls of `dg_add_edge`. -/
inductive built : dgraph_t → Prop where
  | new (cap_hint : Int) : built (dg_new cap_hint)
  | add_node {g : dgraph_t} (key : gkey_t) (value : Nat) (owner : owner_t) :
      built g → built (dg_add_node g key value owner).1
  | add_edge {g g1 : dgraph_t} (src dst : gkey_t) :
      built g → dg_add_edge g src dst = .ok g1 → built g1

/-! ## The run of `dg_bfs` with its queue accesses -/

/-- A queue access of `dg_bfs`: `deq i u` is the read `u = q[i]` at the
head index `i`; `enq i v d` is the write `q[i] = v` at the tail index `i`,
made together with the write `dist[v] = d`. -/
inductive bfs_event where
  | deq (i u : Nat)
  | enq (i v : Nat) (d : Int)
deriving DecidableEq, Repr

/-- The reads of a log, in order: index and node read. -/
def deq_log : List bfs_event → List (Nat × Nat)
  | [] => []
  | .deq i u :: l => (i, u) :: deq_log l
  | .enq _ _ _ :: l => deq_log l

/-- The writes of a log, in order: index, node written and its `dist`. -/
def enq_log : List bfs_event → List (Nat × Nat × Int)
  | [] => []
  | .deq _ _ :: l => enq_log l
  | .enq i v d :: l => (i, v, d) :: enq_log l

/-- The function `bfs_visit` together with the queue write it makes. -/
def bfs_visit_ev (g : dgraph_t) (u : Nat) (st : bfs_state) (k : gkey_t) :
    Except fault (bfs_state × List bfs_event) :=
  let v := key_to_idx g k
  if v < 0 then .ok (st, [])
  else
    match st.R.dist[v.toNat]? with
    | none => .error .out_of_bounds
    | some dv =>
      if dv = -1 then
        match st.R.dist[u]? with
        | none => .error .out_of_bounds
        | some du =>
          if v.toNat < st.R.parent.length ∧ st.tail < st.q.length then
            .ok ({ R := { dist := st.R.dist.set v.toNat (du + 1)
                          parent := st.R.parent.set v.toNat (u : Int) }
                   q := st.q.set st.tail (some v.toNat)
                   head := st.head
                   tail := if st.tail + 1 = g.nodes.length then 0 else st.tail + 1 },
                 [.enq st.tail v.toNat (du + 1)])
          else .error .out_of_bounds
      else .ok (st, [])

/-- The function `bfs_scan` together with the queue writes it makes. -/
def bfs_scan_ev (g : dgraph_t) (u : Nat) :
    List gkey_t → bfs_state → Except fault (bfs_state × List bfs_event)
  | [], st => .ok (st, [])
  | k :: ks, st =>
    match bfs_visit_ev g u st k with
    | .error e => .error e
    | .ok (st1, l1) =>
      match bfs_scan_ev g u ks st1 with
      | .error e => .error e
      | .ok (st2, l2) => .ok (st2, l1 ++ l2)

/-- At most `k` passes of the loop `while (head != tail)` of `dg_bfs`: the
state reached and the queue accesses made.  It stops early when the loop
exits. -/
def bfs_iter (g : dgraph_t) : Nat → bfs_state → Except fault (bfs_state × List bfs_event)
  | 0, st => .ok (st, [])
  | k + 1, st =>
    if st.head = st.tail then .ok (st, [])
    else
      match st.q[st.head]? with
      | none => .error .out_of_bounds
      | some none => .error .uninit_read
      | some (some u) =>
        match g.nodes[u]? with
        | none => .error .out_of_bounds
        | some nd =>
          match bfs_scan_ev g u nd.out.data
              { st with head := if st.head + 1 = g.nodes.length then 0 else st.head + 1 } with
          | .error e => .error e
          | .ok (st1, l1) =>
            match bfs_iter g k st1 with
            | .error e => .error e
            | .ok (st2, l2) => .ok (st2, .deq st.head u :: (l1 ++ l2))

/-- The run of `dg_bfs` up to the end of pass `k` of its queue loop: the
state and every queue access so far, the write `q[0] = src` made before the
loop included. -/
def bfs_trace (k : Nat) (g : dgraph_t) (src_key : gkey_t) :
    Except fault (bfs_state × List bfs_event) :=
  let src := key_to_idx g src_key
  if src < 0 then .error .assert_fail
  else
    match bfs_iter g k (bfs_init g src.toNat) with
    | .error e => .error e
    | .ok (st, l) => .ok (st, .enq 0 src.toNat 0 :: l)

/-- The node in the queue cell `i` (0 for an unwritten cell). -/
def qn (st : bfs_state) (i : Nat) : Nat := (qv st i).getD 0

/-- The log entry of the write to the queue cell `i`, read off a state. -/
def enq_entry (st : bfs_state) (i : Nat) : Nat × Nat × Int := (i, qn st i, dv st (qn st i))

/-- The log entry of the read of the queue cell `i`, read off a state. -/
def deq_entry (st : bfs_state) (i : Nat) : Nat × Nat := (i, qn st i)

/-- The state `st1` extends `st`: the first `E` queue cells and the entries
of the visited nodes are the same. -/
def frame (st : bfs_state) (E : Nat) (st1 : bfs_state) : Prop :=
  (∀ i, i < E → qv st1 i = qv st i) ∧
  (∀ w, dv st w ≠ -1 → dv st1 w = dv st w ∧ pv st1 w = pv st w)

/-- The parent of every visited node other than the source is one of the
first `D` queue entries. -/
def par_settled (s : Nat) (st : bfs_state) (D : Nat) : Prop :=
  ∀ v, dv st v ≠ -1 → v ≠ s → ∃ (p i : Nat), pv st v = (p : Int) ∧ i < D ∧ qv st i = some p

/-! ## List and scan lemmas -/

theorem getD_set_eq {α : Type} (l : List α) (i j : Nat) (a d : α) (h : i < l.length) :
    (l.set i a).getD j d = if j = i then a else l.getD j d := by
  simp only [List.getD_eq_getElem?_getD, List.getElem?_set]
  by_cases hij : i = j
  · subst hij; simp [h]
  · have : ¬ j = i := fun e => hij e.symm
    simp [hij, this]

theorem getD_eq_some_iff {α : Type} (l : List (Option α)) (i : Nat) (a : α) :
    l.getD i none = some a ↔ l[i]? = some (some a) := by
  rw [List.getD_eq_getElem?_getD]
  cases h : l[i]? with
  | none => simp
  | some x => simp

theorem getD_ne_lt (l : List Int) (v : Nat) (h : l.getD v (-1) ≠ -1) : v < l.length := by
  by_contra hlt
  apply h
  rw [List.getD_eq_getElem?_getD, List.getElem?_eq_none (Nat.le_of_not_lt hlt)]
  rfl

theorem getElem?_of_lt_getD (l : List Int) (v : Nat) (h : v < l.length) :
    l[v]? = some (l.getD v (-1)) := by
  rw [List.getD_eq_getElem?_getD]
  simp [List.getElem?_eq_getElem h]

theorem countP_set_fresh (l : List Int) (v : Nat) (x : Int)
    (hv : l[v]? = some (-1)) (hx : x ≠ -1) :
    (l.set v x).countP (fun y => decide (y ≠ -1)) = l.countP (fun y => decide (y ≠ -1)) + 1 := by
  induction l generalizing v with
  | nil => simp at hv
  | cons a t ih =>
    cases v with
    | zero =>
      simp at hv
      subst hv
      simp [List.countP_cons, hx]
    | succ w =>
      simp at hv
      simp only [List.set_cons_succ, List.countP_cons]
      rw [ih w hv]
      omega

theorem countP_lt_of_unset (l : List Int) (v : Nat) (hv : l[v]? = some (-1)) :
    l.countP (fun y => decide (y ≠ -1)) < l.length := by
  have h1 := countP_set_fresh l v 0 hv (by decide)
  have h2 := List.countP_le_length (fun y => decide (y ≠ -1)) (l := l.set v 0)
  rw [List.length_set] at h2
  omega

theorem scan_from_spec (nodes : List dnode_t) (i : Nat) (k : gkey_t) :
    (scan_from nodes i k = -1 ∧ ∀ nd ∈ nodes, nd.key ≠ k) ∨
    ∃ j nd, nodes[j]? = some nd ∧ nd.key = k ∧ scan_from nodes i k = ((i + j : Nat) : Int) ∧
      ∀ j2 nd2, j2 < j → nodes[j2]? = some nd2 → nd2.key ≠ k := by
  induction nodes generalizing i with
  | nil => left; simp [scan_from]
  | cons a t ih =>
    by_cases h : a.key = k
    · right
      refine ⟨0, a, by simp, h, by simp [scan_from, h], ?_⟩
      intro j2 nd2 hj; omega
    · rcases ih (i + 1) with ⟨h1, h2⟩ | ⟨j, nd, h1, h2, h3, h4⟩
      · left
        refine ⟨by simp [scan_from, h, h1], ?_⟩
        intro nd hnd
        rcases List.mem_cons.mp hnd with e | e
        · subst e; exact h
        · exact h2 nd e
      · right
        refine ⟨j + 1, nd, by simpa using h1, h2, ?_, ?_⟩
        · simp only [scan_from, h, if_false, h3]
          congr 1; omega
        · intro j2 nd2 hj hnd2
          cases j2 with
          | zero => simp at hnd2; subst hnd2; exact h
          | succ j3 =>
            simp at hnd2
            exact h4 j3 nd2 (by omega) hnd2

theorem scan_from_nonneg_or (nodes : List dnode_t) (i : Nat) (k : gkey_t) :
    scan_from nodes i k = -1 ∨ 0 ≤ scan_from nodes i k := by
  rcases scan_from_spec nodes i k with ⟨h, _⟩ | ⟨j, nd, _, _, h, _⟩
  · left; exact h
  · right; rw [h]; exact Int.natCast_nonneg _

/-- A non-negative result of `key_to_idx` is the index of a node with that key. -/
theorem key_to_idx_some (g : dgraph_t) (k : gkey_t) (h : 0 ≤ key_to_idx g k) :
    ∃ (v : Nat) (nd : dnode_t), key_to_idx g k = (v : Int) ∧ g.nodes[v]? = some nd ∧
      nd.key = k ∧ v < g.nodes.length := by
  unfold key_to_idx at *
  rcases scan_from_spec g.nodes 0 k with ⟨h1, _⟩ | ⟨j, nd, h1, h2, h3, _⟩
  · rw [h1] at h; exact absurd h (by decide)
  · refine ⟨j, nd, by simpa using h3, h1, h2, ?_⟩
    exact (List.getElem?_eq_some.mp h1).1

theorem key_to_idx_of_nat (g : dgraph_t) (k : gkey_t) (v : Nat)
    (h : key_to_idx g k = (v : Int)) :
    ∃ nd, g.nodes[v]? = some nd ∧ nd.key = k ∧ v < g.nodes.length := by
  obtain ⟨w, nd, h1, h2, h3, h4⟩ := key_to_idx_some g k (by rw [h]; exact Int.natCast_nonneg _)
  have : w = v := by rw [h1] at h; exact_mod_cast h
  subst this
  exact ⟨nd, h2, h3, h4⟩

theorem keys_distinct_idx {g : dgraph_t} (hd : keys_distinct g) (i j : Nat) (ni nj : dnode_t)
    (hi : g.nodes[i]? = some ni) (hj : g.nodes[j]? = some nj) (he : ni.key = nj.key) :
    i = j := by
  obtain ⟨hil, hie⟩ := List.getElem?_eq_some.mp hi
  obtain ⟨hjl, hje⟩ := List.getElem?_eq_some.mp hj
  have hil2 : i < (g.nodes.map dnode_t.key).length := by simpa using hil
  have hjl2 : j < (g.nodes.map dnode_t.key).length := by simpa using hjl
  refine (@List.Nodup.getElem_inj_iff _ _ hd i hil2 j hjl2).mp ?_
  simp [hie, hje, he]

theorem has_key_iff (g : dgraph_t) (k : gkey_t) : has_key g k ↔ 0 ≤ key_to_idx g k := by
  unfold key_to_idx
  rcases scan_from_spec g.nodes 0 k with ⟨h1, h2⟩ | ⟨j, nd, h1, h2, h3, _⟩
  · rw [h1]
    constructor
    · rintro ⟨nd, hnd, hk⟩; exact absurd hk (h2 nd hnd)
    · intro h; exact absurd h (by decide)
  · rw [h3]
    constructor
    · intro _; exact Int.natCast_nonneg _
    · intro _
      obtain ⟨hlt, he⟩ := List.getElem?_eq_some.mp h1
      exact ⟨nd, he ▸ List.getElem_mem hlt, h2⟩

/-- With distinct keys `key_to_idx` inverts the key of every node. -/
theorem key_to_idx_of_distinct (g : dgraph_t) (hd : keys_distinct g) (v : Nat) (nd : dnode_t)
    (h : g.nodes[v]? = some nd) : key_to_idx g nd.key = (v : Int) := by
  rcases scan_from_spec g.nodes 0 nd.key with ⟨_, h2⟩ | ⟨j, nj, h1, h2, h3, _⟩
  · obtain ⟨hlt, he⟩ := List.getElem?_eq_some.mp h
    exact absurd rfl (h2 nd (he ▸ List.getElem_mem hlt))
  · have : j = v := keys_distinct_idx hd j v nj nd h1 h h2
    subst this
    unfold key_to_idx; rw [h3]; simp

theorem key_to_idx_absent (g : dgraph_t) (k : gkey_t) (h : ¬ 0 ≤ key_to_idx g k) :
    key_to_idx g k = -1 := by
  rcases scan_from_nonneg_or g.nodes 0 k with h1 | h1
  · exact h1
  · exact absurd h1 h

/-! ## Preservation of the invariant -/

theorem Inv.E_le {g : dgraph_t} {s : Nat} {st : bfs_state} {E : Nat} (h : Inv g s st E) :
    E ≤ g.nodes.length := by
  have := List.countP_le_length (fun y => decide (y ≠ -1)) (l := st.R.dist)
  rw [h.cnt, h.len_d] at this
  exact this

theorem Inv.lt_of_visited {g : dgraph_t} {s : Nat} {st : bfs_state} {E : Nat}
    (h : Inv g s st E) {v : Nat} (hv : dv st v ≠ -1) : v < g.nodes.length := by
  have := getD_ne_lt st.R.dist v hv
  rw [h.len_d] at this
  exact this

theorem dv_enq (g : dgraph_t) (st : bfs_state) (u vn w : Nat) (h : vn < st.R.dist.length) :
    dv (enq_state g st u vn) w = if w = vn then dv st u + 1 else dv st w := by
  simp only [dv, enq_state]
  exact getD_set_eq _ _ _ _ _ h

theorem pv_enq (g : dgraph_t) (st : bfs_state) (u vn w : Nat) (h : vn < st.R.parent.length) :
    pv (enq_state g st u vn) w = if w = vn then (u : Int) else pv st w := by
  simp only [pv, enq_state]
  exact getD_set_eq _ _ _ _ _ h

theorem qv_enq (g : dgraph_t) (st : bfs_state) (u vn i : Nat) (h : st.tail < st.q.length) :
    qv (enq_state g st u vn) i = if i = st.tail then some vn else qv st i := by
  simp only [qv, enq_state]
  exact getD_set_eq _ _ _ _ _ h

/-- Visiting a fresh target `vn` of the expanded node `u` keeps the invariant. -/
theorem enq_inner {g : dgraph_t} {s u D : Nat} {st : bfs_state} {E : Nat}
    (h : Inner g s u D st E) {vn : Nat} (hk : cedge g u vn) (hun : dv st vn = -1)
    (hvn : vn < g.nodes.length) :
    st.tail < st.q.length ∧ Inner g s u D (enq_state g st u vn) (E + 1) := by
  have hI := h.inv
  have hvd : vn < st.R.dist.length := by rw [hI.len_d]; exact hvn
  have hvp : vn < st.R.parent.length := by rw [hI.len_p]; exact hvn
  have hget : st.R.dist[vn]? = some (-1) := by
    rw [getElem?_of_lt_getD _ _ hvd]; exact congrArg some hun
  have hE : E < g.nodes.length := by
    have := countP_lt_of_unset st.R.dist vn hget
    rw [hI.cnt, hI.len_d] at this; exact this
  have htail : st.tail = E := by rw [hI.tail_eq, if_neg (Nat.ne_of_lt hE)]
  have htq : st.tail < st.q.length := by rw [hI.len_q, htail]; exact hE
  have F1 : ∀ w, dv (enq_state g st u vn) w = if w = vn then dv st u + 1 else dv st w :=
    fun w => dv_enq g st u vn w hvd
  have F2 : ∀ w, pv (enq_state g st u vn) w = if w = vn then (u : Int) else pv st w :=
    fun w => pv_enq g st u vn w hvp
  have F3 : ∀ i, qv (enq_state g st u vn) i = if i = E then some vn else qv st i := by
    intro i; rw [qv_enq g st u vn i htq, htail]
  have hne : ∀ w, dv st w ≠ -1 → w ≠ vn := by
    intro w hw e; subst e; exact hw hun
  have hu : dv st u ≠ -1 := by
    obtain ⟨a, ha, hda⟩ := hI.qhist (D - 1) (by have := h.D_pos; have := h.D_le; omega)
    rw [h.cur] at ha; cases ha; exact hda
  obtain ⟨du, hdu, hwu, hduE⟩ := hI.sound u hu
  have hunv : u ≠ vn := hne u hu
  have F1old : ∀ w, dv st w ≠ -1 → dv (enq_state g st u vn) w = dv st w := by
    intro w hw; rw [F1, if_neg (hne w hw)]
  have F1new : dv (enq_state g st u vn) vn = dv st u + 1 := by rw [F1, if_pos rfl]
  have F3old : ∀ i, i < E → qv (enq_state g st u vn) i = qv st i := by
    intro i hi; rw [F3, if_neg (Nat.ne_of_lt hi)]
  have F3new : qv (enq_state g st u vn) E = some vn := by rw [F3, if_pos rfl]
  have hqvis : ∀ i a, i < E → qv st i = some a → dv st a ≠ -1 := by
    intro i a hi ha
    obtain ⟨b, hb, hdb⟩ := hI.qhist i hi
    rw [ha] at hb; cases hb; exact hdb
  have hnewne : dv st u + 1 ≠ -1 := by rw [hdu]; omega
  refine ⟨htq, ?_⟩
  have hInv : Inv g s (enq_state g st u vn) (E + 1) := by
    refine
      { hs := hI.hs
        len_d := by simp [enq_state, hI.len_d]
        len_p := by simp [enq_state, hI.len_p]
        len_q := by simp [enq_state, hI.len_q]
        E_pos := by omega
        cnt := ?_
        tail_eq := ?_
        q0 := ?_
        qhist := ?_
        qinj := ?_
        v2q := ?_
        mono := ?_
        src_d := ?_
        src_p := ?_
        sound := ?_
        par := ?_
        unv := ?_ }
    · show (st.R.dist.set vn (dv st u + 1)).countP _ = E + 1
      rw [countP_set_fresh _ _ _ hget hnewne, hI.cnt]
    · show (if st.tail + 1 = g.nodes.length then 0 else st.tail + 1) = _
      rw [htail]
    · rw [F3old 0 (by have := hI.E_pos; omega)]; exact hI.q0
    · intro i hi
      by_cases hiE : i = E
      · subst hiE
        exact ⟨vn, F3new, by rw [F1new]; exact hnewne⟩
      · have hi2 : i < E := by omega
        obtain ⟨a, ha, hda⟩ := hI.qhist i hi2
        exact ⟨a, by rw [F3old i hi2]; exact ha, by rw [F1old a hda]; exact hda⟩
    · intro i j a hi hj hqi hqj
      by_cases hiE : i = E
      · by_cases hjE : j = E
        · omega
        · have hj2 : j < E := by omega
          subst hiE
          rw [F3new] at hqi; cases hqi
          rw [F3old j hj2] at hqj
          exact absurd hun (hqvis j _ hj2 hqj)
      · have hi2 : i < E := by omega
        rw [F3old i hi2] at hqi
        by_cases hjE : j = E
        · subst hjE
          rw [F3new] at hqj; cases hqj
          exact absurd hun (hqvis i _ hi2 hqi)
        · have hj2 : j < E := by omega
          rw [F3old j hj2] at hqj
          exact hI.qinj i j a hi2 hj2 hqi hqj
    · intro v hv
      by_cases hvv : v = vn
      · subst hvv; exact ⟨E, by omega, F3new⟩
      · rw [F1, if_neg hvv] at hv
        obtain ⟨i, hi, hq⟩ := hI.v2q v hv
        exact ⟨i, by omega, by rw [F3old i hi]; exact hq⟩
    · intro i j a b hij hj hqi hqj
      by_cases hjE : j = E
      · subst hjE
        rw [F3new] at hqj; cases hqj
        rw [F1new]
        by_cases hiE : i = j
        · subst hiE
          rw [F3new] at hqi; cases hqi
          rw [F1new]
        · have hi2 : i < j := by omega
          rw [F3old i hi2] at hqi
          rw [F1old a (hqvis i a hi2 hqi)]
          exact h.bound i a hi2 hqi
      · have hj2 : j < E := by omega
        have hi2 : i < E := by omega
        rw [F3old i hi2] at hqi
        rw [F3old j hj2] at hqj
        rw [F1old a (hqvis i a hi2 hqi), F1old b (hqvis j b hj2 hqj)]
        exact hI.mono i j a b hij hj2 hqi hqj
    · rw [F1old s (by rw [hI.src_d]; decide)]; exact hI.src_d
    · rw [F2, if_neg (hne s (by rw [hI.src_d]; decide))]; exact hI.src_p
    · intro v hv
      by_cases hvv : v = vn
      · subst hvv
        refine ⟨du + 1, ?_, cwalk.step hwu hk, by omega⟩
        rw [F1new, hdu]; push_cast; rfl
      · rw [F1, if_neg hvv] at hv
        obtain ⟨d, hd, hw, hdE⟩ := hI.sound v hv
        exact ⟨d, by rw [F1, if_neg hvv]; exact hd, hw, by omega⟩
    · intro v hv hvs
      by_cases hvv : v = vn
      · subst hvv
        refine ⟨u, D - 1, by rw [F2, if_pos rfl], ?_, ?_, hk, ?_, ?_⟩
        · have := h.D_pos; have := h.D_le; omega
        · rw [F3old (D - 1) (by have := h.D_pos; have := h.D_le; omega)]; exact h.cur
        · rw [F1new, F1old u hu]
        · intro j w hj hq hc
          have hjE : j < E := by have := h.D_le; omega
          rw [F3old j hjE] at hq
          exact (h.closed j w hj hq v hc).1 hun
      · rw [F1, if_neg hvv] at hv
        obtain ⟨p, i, hp, hi, hq, hc, hd, hfirst⟩ := hI.par v hv hvs
        refine ⟨p, i, by rw [F2, if_neg hvv]; exact hp, by omega, by rw [F3old i hi]; exact hq,
          hc, ?_, ?_⟩
        · rw [F1old v hv, F1old p (hqvis i p hi hq)]; exact hd
        · intro j w hj hq2
          rw [F3old j (by omega)] at hq2
          exact hfirst j w hj hq2
    · intro v hv
      by_cases hvv : v = vn
      · subst hvv; rw [F1new] at hv; exact absurd hv hnewne
      · rw [F1, if_neg hvv] at hv
        rw [F2, if_neg hvv]; exact hI.unv v hv
  refine
    { inv := hInv
      D_pos := h.D_pos
      D_le := by have := h.D_le; omega
      cur := by rw [F3old (D - 1) (by have := h.D_pos; have := h.D_le; omega)]; exact h.cur
      closed := ?_
      bound := ?_
      head_eq := h.head_eq }
  · intro i a hi hq w hc
    have hiE : i < E := by have := h.D_le; omega
    rw [F3old i hiE] at hq
    obtain ⟨h1, h2⟩ := h.closed i a hi hq w hc
    rw [F1old w h1, F1old a (hqvis i a hiE hq)]
    exact ⟨h1, h2⟩
  · intro j b hj hq
    rw [F1old u hu]
    by_cases hjE : j = E
    · subst hjE
      rw [F3new] at hq; cases hq
      rw [F1new]
    · have hj2 : j < E := by omega
      rw [F3old j hj2] at hq
      rw [F1old b (hqvis j b hj2 hq)]
      exact h.bound j b hj2 hq

theorem visit_absent (g : dgraph_t) (u : Nat) (st : bfs_state) (k : gkey_t)
    (h : key_to_idx g k < 0) : bfs_visit g u st k = .ok st := by
  unfold bfs_visit
  simp [h]

theorem visit_seen (g : dgraph_t) (u : Nat) (st : bfs_state) (k : gkey_t) (vn : Nat)
    (hk : key_to_idx g k = (vn : Int)) (hlt : vn < st.R.dist.length) (hd : dv st vn ≠ -1) :
    bfs_visit g u st k = .ok st := by
  unfold bfs_visit
  have hget := getElem?_of_lt_getD st.R.dist vn hlt
  have hd2 : ¬ st.R.dist.getD vn (-1) = -1 := hd
  generalize st.R.dist.getD vn (-1) = x at hget hd2
  simp [hk, hget, hd2]

theorem visit_fresh (g : dgraph_t) (u : Nat) (st : bfs_state) (k : gkey_t) (vn : Nat)
    (hk : key_to_idx g k = (vn : Int)) (hlt : vn < st.R.dist.length)
    (hlp : vn < st.R.parent.length) (hu : u < st.R.dist.length)
    (ht : st.tail < st.q.length) (hd : dv st vn = -1) :
    bfs_visit g u st k = .ok (enq_state g st u vn) := by
  unfold bfs_visit
  have hget := getElem?_of_lt_getD st.R.dist vn hlt
  have hgetu := getElem?_of_lt_getD st.R.dist u hu
  have hd2 : st.R.dist.getD vn (-1) = -1 := hd
  rw [hd2] at hget
  have hdu : dv st u = st.R.dist.getD u (-1) := rfl
  simp only [enq_state, hdu]
  generalize st.R.dist.getD u (-1) = y at hgetu
  simp [hk, hget, hgetu, hlp, ht]

/-- One pass of the inner loop keeps the invariant and settles the target of
the out-list entry `k`. -/
theorem visit_step {g : dgraph_t} {s u D : Nat} {st : bfs_state} {E : Nat}
    (h : Inner g s u D st E) {nd : dnode_t} (hnd : g.nodes[u]? = some nd) {k : gkey_t}
    (hk : k ∈ nd.out.data) :
    ∃ st1 E1, bfs_visit g u st k = .ok st1 ∧ Inner g s u D st1 E1 ∧ E ≤ E1 ∧
      (∀ w, dv st w ≠ -1 → dv st1 w = dv st w) ∧
      (∀ w : Nat, key_to_idx g k = (w : Int) → dv st1 w ≠ -1 ∧ dv st1 w ≤ dv st1 u + 1) := by
  by_cases hneg : key_to_idx g k < 0
  · refine ⟨st, E, visit_absent g u st k hneg, h, le_refl _, fun _ _ => rfl, ?_⟩
    intro w hw
    rw [hw] at hneg
    exact absurd (Int.natCast_nonneg w) (not_le.mpr hneg)
  · obtain ⟨vn, nv, hkv, _, _, hvn⟩ := key_to_idx_some g k (not_lt.mp hneg)
    have hI := h.inv
    have hvd : vn < st.R.dist.length := by rw [hI.len_d]; exact hvn
    by_cases hd : dv st vn = -1
    · have hc : cedge g u vn := ⟨nd, k, hnd, hk, hkv⟩
      obtain ⟨htq, hin⟩ := enq_inner h hc hd hvn
      have hu : dv st u ≠ -1 := by
        obtain ⟨a, ha, hda⟩ := hI.qhist (D - 1) (by have := h.D_pos; have := h.D_le; omega)
        rw [h.cur] at ha; cases ha; exact hda
      have hul : u < st.R.dist.length := getD_ne_lt _ _ hu
      refine ⟨enq_state g st u vn, E + 1,
        visit_fresh g u st k vn hkv hvd (by rw [hI.len_p]; exact hvn) hul htq hd, hin,
        Nat.le_succ _, ?_, ?_⟩
      · intro w hw
        rw [dv_enq g st u vn w hvd, if_neg]
        intro e; subst e; exact hw hd
      · intro w hw
        have : w = vn := by rw [hkv] at hw; exact_mod_cast hw.symm
        subst this
        have hne : u ≠ w := by intro e; subst e; exact hu hd
        rw [dv_enq g st u w w hvd, if_pos rfl, dv_enq g st u w u hvd, if_neg hne]
        obtain ⟨du, hdu, _, _⟩ := hI.sound u hu
        exact ⟨by rw [hdu]; omega, le_refl _⟩
    · refine ⟨st, E, visit_seen g u st k vn hkv hvd hd, h, le_refl _, fun _ _ => rfl, ?_⟩
      intro w hw
      have : w = vn := by rw [hkv] at hw; exact_mod_cast hw.symm
      subst this
      obtain ⟨j, hj, hq⟩ := hI.v2q w hd
      exact ⟨hd, h.bound j w hj hq⟩

/-- The inner loop over a part `ks` of the out list of `u`. -/
theorem scan_steps {g : dgraph_t} {s u D : Nat} {nd : dnode_t} (hnd : g.nodes[u]? = some nd)
    (ks : List gkey_t) :
    ∀ {st : bfs_state} {E : Nat}, Inner g s u D st E → (∀ k ∈ ks, k ∈ nd.out.data) →
    ∃ st1 E1, bfs_scan g u ks st = .ok st1 ∧ Inner g s u D st1 E1 ∧ E ≤ E1 ∧
      (∀ w, dv st w ≠ -1 → dv st1 w = dv st w) ∧
      (∀ k ∈ ks, ∀ w : Nat, key_to_idx g k = (w : Int) →
        dv st1 w ≠ -1 ∧ dv st1 w ≤ dv st1 u + 1) := by
  induction ks with
  | nil =>
    intro st E h _
    exact ⟨st, E, rfl, h, le_refl _, fun _ _ => rfl, by simp⟩
  | cons k ks ih =>
    intro st E h hsub
    obtain ⟨st1, E1, hv, hin1, hE1, hfr1, hcl1⟩ :=
      visit_step h hnd (hsub k (List.mem_cons_self _ _))
    obtain ⟨st2, E2, hs, hin2, hE2, hfr2, hcl2⟩ :=
      ih hin1 (fun k2 hk2 => hsub k2 (List.mem_cons_of_mem _ hk2))
    refine ⟨st2, E2, ?_, hin2, le_trans hE1 hE2, ?_, ?_⟩
    · simp only [bfs_scan, hv]; exact hs
    · intro w hw
      rw [hfr2 w (by rw [hfr1 w hw]; exact hw), hfr1 w hw]
    · intro k2 hk2 w hw
      rcases List.mem_cons.mp hk2 with e | e
      · subst e
        obtain ⟨h1, h2⟩ := hcl1 w hw
        have hu1 : dv st1 u ≠ -1 := by
          obtain ⟨a, ha, hda⟩ := hin1.inv.qhist (D - 1)
            (by have := hin1.D_pos; have := hin1.D_le; omega)
          rw [hin1.cur] at ha; cases ha; exact hda
        rw [hfr2 w h1, hfr2 u hu1]
        exact ⟨h1, h2⟩
      · exact hcl2 k2 e w hw

theorem bfs_loop_done (g : dgraph_t) (fuel : Nat) (st : bfs_state) (h : st.head = st.tail) :
    bfs_loop g fuel st = .ok st := by
  unfold bfs_loop
  simp [h]

theorem bfs_loop_step (g : dgraph_t) (fuel : Nat) (st : bfs_state) (h : st.head ≠ st.tail)
    (u : Nat) (hq : st.q[st.head]? = some (some u)) (nd : dnode_t)
    (hnd : g.nodes[u]? = some nd) (st1 : bfs_state)
    (hs : bfs_scan g u nd.out.data
      { st with head := if st.head + 1 = g.nodes.length then 0 else st.head + 1 } = .ok st1) :
    bfs_loop g (fuel + 1) st = bfs_loop g fuel st1 := by
  conv => lhs; unfold bfs_loop
  simp only [h, if_false, hq, hnd, hs]

/-- Termination of the queue loop from any state that satisfies the
invariant: `n - D` iterations are enough, and the final state has an empty
queue. -/
theorem loop_runs {g : dgraph_t} {s : Nat} :
    ∀ (fuel D : Nat) (st : bfs_state) (E : Nat), Outer g s D st E →
      g.nodes.length - D ≤ fuel →
      ∃ st1 E1, bfs_loop g fuel st = .ok st1 ∧ Outer g s E1 st1 E1 := by
  intro fuel
  induction fuel with
  | zero =>
    intro D st E h hf
    have hI := h.inv
    have hEn := hI.E_le
    have hDE := h.D_le
    have hD : D = g.nodes.length := by omega
    have hE : E = g.nodes.length := by omega
    refine ⟨st, E, bfs_loop_done g 0 st ?_, ?_⟩
    · rw [h.head_eq, hI.tail_eq, if_pos hD, if_pos hE]
    · rw [hD, ← hE] at h; exact h
  | succ f ih =>
    intro D st E h hf
    have hI := h.inv
    have hEn := hI.E_le
    have hDE := h.D_le
    by_cases hDeq : D = E
    · refine ⟨st, E, bfs_loop_done g _ st ?_, ?_⟩
      · rw [h.head_eq, hI.tail_eq, hDeq]
      · rw [hDeq] at h; exact h
    · have hDlt : D < E := by omega
      have hDn : D ≠ g.nodes.length := by omega
      have hhead : st.head = D := by rw [h.head_eq, if_neg hDn]
      have hne : st.head ≠ st.tail := by
        rw [hhead, hI.tail_eq]
        by_cases hE : E = g.nodes.length
        · rw [if_pos hE]
          intro h0
          have := h.start h0
          omega
        · rw [if_neg hE]; exact hDeq
      obtain ⟨u, hqu, hdu⟩ := hI.qhist D hDlt
      have hun : u < g.nodes.length := hI.lt_of_visited hdu
      obtain ⟨nd, hnd⟩ : ∃ nd, g.nodes[u]? = some nd :=
        ⟨g.nodes[u], List.getElem?_eq_getElem hun⟩
      have hq : st.q[st.head]? = some (some u) := by
        rw [hhead]; exact (getD_eq_some_iff st.q D u).mp hqu
      have hin : Inner g s u (D + 1)
          { st with head := if st.head + 1 = g.nodes.length then 0 else st.head + 1 } E :=
        { inv := { hI with }
          D_pos := by omega
          D_le := by omega
          cur := hqu
          closed := h.closed
          bound := h.bound u hDlt hqu
          head_eq := by simp only [hhead] }
      obtain ⟨st1, E1, hs, hin1, _, _, hcl⟩ := scan_steps hnd nd.out.data hin (fun _ hk => hk)
      have hI1 := hin1.inv
      have hcur : qv st1 D = some u := hin1.cur
      have hout : Outer g s (D + 1) st1 E1 :=
        { inv := hI1
          D_le := hin1.D_le
          closed := by
            intro i a hi hqa w hc
            by_cases hiD : i = D
            · subst hiD
              rw [hcur] at hqa; cases hqa
              obtain ⟨nd2, k, hnd2, hk, hkw⟩ := hc
              rw [hnd] at hnd2; cases hnd2
              exact hcl k hk w hkw
            · exact hin1.closed i a (by omega) hqa w hc
          head_eq := hin1.head_eq
          bound := by
            intro c hlt hqc j b hj hqb
            have h1 := hin1.bound j b hj hqb
            have h2 := hI1.mono D (D + 1) u c (by omega) hlt hcur hqc
            omega
          start := by intro h0; omega }
      obtain ⟨st2, E2, hl, hout2⟩ := ih (D + 1) st1 E1 hout (by omega)
      exact ⟨st2, E2, by rw [bfs_loop_step g f st hne u hq nd hnd st1 hs]; exact hl, hout2⟩

theorem getD_replicate_self {α : Type} (n w : Nat) (a : α) :
    (List.replicate n a).getD w a = a := by
  rw [List.getD_eq_getElem?_getD, List.getElem?_replicate]
  split <;> rfl

theorem dv_init (g : dgraph_t) (s w : Nat) (hs : s < g.nodes.length) :
    dv (bfs_init g s) w = if w = s then 0 else -1 := by
  simp only [dv, bfs_init]
  rw [getD_set_eq _ _ _ _ _ (by simpa using hs), getD_replicate_self]

theorem pv_init (g : dgraph_t) (s w : Nat) (hs : s < g.nodes.length) :
    pv (bfs_init g s) w = if w = s then (s : Int) else -1 := by
  simp only [pv, bfs_init]
  rw [getD_set_eq _ _ _ _ _ (by simpa using hs), getD_replicate_self]

theorem qv_init (g : dgraph_t) (s i : Nat) (hs : s < g.nodes.length) :
    qv (bfs_init g s) i = if i = 0 then some s else none := by
  simp only [qv, bfs_init]
  rw [getD_set_eq _ _ _ _ _ (by simp; omega), getD_replicate_self]

/-- The invariant holds on entry to the queue loop when the graph has at
least two nodes. -/
theorem init_outer (g : dgraph_t) (s : Nat) (hs : s < g.nodes.length)
    (hn : 2 ≤ g.nodes.length) : Outer g s 0 (bfs_init g s) 1 := by
  have hd : ∀ w, dv (bfs_init g s) w ≠ -1 → w = s := by
    intro w hw
    rw [dv_init g s w hs] at hw
    by_contra hne
    rw [if_neg hne] at hw
    exact hw rfl
  have hds : dv (bfs_init g s) s = 0 := by rw [dv_init g s s hs, if_pos rfl]
  have hq : ∀ i a, i < 1 → qv (bfs_init g s) i = some a → a = s := by
    intro i a hi ha
    rw [qv_init g s i hs, if_pos (by omega)] at ha
    cases ha; rfl
  have hq0 : qv (bfs_init g s) 0 = some s := by rw [qv_init g s 0 hs, if_pos rfl]
  have hI : Inv g s (bfs_init g s) 1 :=
    { hs := hs
      len_d := by simp [bfs_init]
      len_p := by simp [bfs_init]
      len_q := by simp [bfs_init]
      E_pos := le_refl _
      cnt := by
        show ((List.replicate g.nodes.length (-1 : Int)).set s 0).countP _ = 1
        rw [countP_set_fresh _ s 0 (by rw [List.getElem?_replicate, if_pos hs]) (by decide)]
        simp [List.countP_replicate]
      tail_eq := by
        show 1 = _
        rw [if_neg (by omega)]
      q0 := hq0
      qhist := by
        intro i hi
        have : i = 0 := by omega
        subst this
        exact ⟨s, hq0, by rw [hds]; decide⟩
      qinj := by intro i j a hi hj _ _; omega
      v2q := by
        intro v hv
        rw [hd v hv]
        exact ⟨0, by omega, hq0⟩
      mono := by
        intro i j a b hij hj ha hb
        rw [hq i a (by omega) ha, hq j b hj hb]
      src_d := hds
      src_p := by rw [pv_init g s s hs, if_pos rfl]
      sound := by
        intro v hv
        rw [hd v hv]
        exact ⟨0, by rw [hds]; rfl, cwalk.here hs, by omega⟩
      par := by
        intro v hv hvs
        exact absurd (hd v hv) hvs
      unv := by
        intro v hv
        have hvs : v ≠ s := by
          intro e; rw [e, hds] at hv; exact absurd hv (by decide)
        rw [pv_init g s v hs, if_neg hvs] }
  exact
    { inv := hI
      D_le := by omega
      closed := by intro i a hi; omega
      head_eq := by
        show 0 = _
        split <;> rfl
      bound := by
        intro c _ hc j b hj hb
        rw [hq j b hj hb, hq 0 c (by omega) hc]
        omega
      start := by intro _; omega }

theorem Outer.final {g : dgraph_t} {s : Nat} {st : bfs_state} {E : Nat}
    (h : Outer g s E st E) : Final g s st := by
  have hI := h.inv
  have hleast : ∀ v k, cwalk g s v k → dv st v ≠ -1 ∧ dv st v ≤ (k : Int) := by
    intro v k hw
    induction hw with
    | here _ => rw [hI.src_d]; exact ⟨by decide, le_refl _⟩
    | step _ hc ih =>
      obtain ⟨i, hi, hq⟩ := hI.v2q _ ih.1
      obtain ⟨h1, h2⟩ := h.closed i _ hi hq _ hc
      exact ⟨h1, by push_cast; omega⟩
  exact
    { len_d := hI.len_d
      len_p := hI.len_p
      src_d := hI.src_d
      src_p := hI.src_p
      sound := by
        intro v hv
        obtain ⟨d, h1, h2, h3⟩ := hI.sound v hv
        exact ⟨d, h1, h2, lt_of_lt_of_le h3 hI.E_le⟩
      least := hleast
      par := by
        intro v hv hvs
        obtain ⟨p, i, h1, h2, h3, h4, h5, _⟩ := hI.par v hv hvs
        obtain ⟨a, ha, hda⟩ := hI.qhist i h2
        rw [h3] at ha; cases ha
        exact ⟨p, h1, hda, h4, h5⟩
      unv := hI.unv }

/-- On a graph with at least two nodes `dg_bfs` returns, with any fuel of at
least `n`, the arrays of a final state of the queue loop. -/
theorem dg_bfs_runs (g : dgraph_t) (src_key : gkey_t) (s : Nat)
    (hs : key_to_idx g src_key = (s : Int)) (hn : 2 ≤ g.nodes.length) (fuel : Nat)
    (hf : g.nodes.length ≤ fuel) :
    ∃ st E, dg_bfs fuel g src_key = .ok st.R ∧ Outer g s E st E := by
  obtain ⟨_, _, _, hlt⟩ := key_to_idx_of_nat g src_key s hs
  obtain ⟨st, E, hl, ho⟩ := loop_runs fuel 0 (bfs_init g s) 1 (init_outer g s hlt hn) (by omega)
  refine ⟨st, E, ?_, ho⟩
  unfold dg_bfs
  simp [hs, hl]

/-! ## The graph with one node -/

theorem scan_single (g : dgraph_t) (hn : g.nodes.length = 1) (ks : List gkey_t) :
    bfs_scan g 0 ks (bfs_init g 0) = .ok (bfs_init g 0) := by
  induction ks with
  | nil => rfl
  | cons k ks ih =>
    have hv : bfs_visit g 0 (bfs_init g 0) k = .ok (bfs_init g 0) := by
      by_cases hneg : key_to_idx g k < 0
      · exact visit_absent g 0 _ k hneg
      · obtain ⟨vn, _, hkv, _, _, hvn⟩ := key_to_idx_some g k (not_lt.mp hneg)
        have : vn = 0 := by omega
        subst this
        refine visit_seen g 0 _ k 0 hkv (by simp [bfs_init, hn]) ?_
        rw [dv_init g 0 0 (by omega), if_pos rfl]
        decide
    simp only [bfs_scan, hv]
    exact ih

/-- On a graph with exactly one node the queue loop never exits: `tail`
stays 1 and `head` is back at 0 after every pass. -/
theorem loop_single (g : dgraph_t) (hn : g.nodes.length = 1) (fuel : Nat) :
    bfs_loop g fuel (bfs_init g 0) = .error .out_of_fuel := by
  induction fuel with
  | zero =>
    unfold bfs_loop
    simp [bfs_init]
  | succ f ih =>
    obtain ⟨nd, hnd⟩ : ∃ nd, g.nodes[0]? = some nd :=
      ⟨g.nodes[0], List.getElem?_eq_getElem (by omega)⟩
    have hst : ({ bfs_init g 0 with
        head := if (bfs_init g 0).head + 1 = g.nodes.length then 0
          else (bfs_init g 0).head + 1 } : bfs_state) = bfs_init g 0 := by
      simp [bfs_init, hn]
    rw [bfs_loop_step g f (bfs_init g 0) (by simp [bfs_init]) 0 (by simp [bfs_init, hn]) nd hnd
      (bfs_init g 0) (by rw [hst]; exact scan_single g hn nd.out.data)]
    exact ih

theorem dg_bfs_single (g : dgraph_t) (hn : g.nodes.length = 1) (src_key : gkey_t)
    (hs : 0 ≤ key_to_idx g src_key) (fuel : Nat) :
    dg_bfs fuel g src_key = .error .out_of_fuel := by
  obtain ⟨s, _, hks, _, _, hlt⟩ := key_to_idx_some g src_key hs
  have : s = 0 := by omega
  subst this
  unfold dg_bfs
  simp [hks, loop_single g hn fuel]

/-! ## The two edge relations -/

theorem cedge_edge {g : dgraph_t} {u v : Nat} (h : cedge g u v) : edge g u v := by
  obtain ⟨nd, k, h1, h2, h3⟩ := h
  obtain ⟨nv, h4, h5, _⟩ := key_to_idx_of_nat g k v h3
  exact ⟨nd, nv, h1, h4, by rw [h5]; exact h2⟩

theorem edge_cedge {g : dgraph_t} (hd : keys_distinct g) {u v : Nat} (h : edge g u v) :
    cedge g u v := by
  obtain ⟨nu, nv, h1, h2, h3⟩ := h
  exact ⟨nu, nv.key, h1, h3, key_to_idx_of_distinct g hd v nv h2⟩

theorem cwalk_walk {g : dgraph_t} {s v k : Nat} (h : cwalk g s v k) : walk g s v k := by
  induction h with
  | here hs => exact walk.here hs
  | step _ hc ih => exact walk.step ih (cedge_edge hc)

theorem walk_cwalk {g : dgraph_t} (hd : keys_distinct g) {s v k : Nat} (h : walk g s v k) :
    cwalk g s v k := by
  induction h with
  | here hs => exact cwalk.here hs
  | step _ hc ih => exact cwalk.step ih (edge_cedge hd hc)

theorem dv_eq_of_get {st : bfs_state} {v : Nat} {x : Int} (h : st.R.dist[v]? = some x) :
    dv st v = x := by
  simp [dv, List.getD_eq_getElem?_getD, h]

theorem Final.dist_get {g : dgraph_t} {s : Nat} {st : bfs_state} (h : Final g s st) {v : Nat}
    (hv : v < g.nodes.length) : st.R.dist[v]? = some (dv st v) :=
  getElem?_of_lt_getD _ _ (by rw [h.len_d]; exact hv)

theorem Final.parent_get {g : dgraph_t} {s : Nat} {st : bfs_state} (h : Final g s st) {v : Nat}
    (hv : v < g.nodes.length) : st.R.parent[v]? = some (pv st v) :=
  getElem?_of_lt_getD _ _ (by rw [h.len_p]; exact hv)

theorem walk_lt {g : dgraph_t} {s v k : Nat} (h : walk g s v k) : v < g.nodes.length := by
  cases h with
  | here hs => exact hs
  | step _ he =>
    obtain ⟨_, nv, _, h2, _⟩ := he
    exact (List.getElem?_eq_some.mp h2).1

/-! ## Path reconstruction -/

theorem path_walk_none (g : dgraph_t) (parent : List Int) (room : Nat) (tmp : List gkey_t) :
    path_walk g parent room (-1) tmp = .ok tmp := by
  unfold path_walk
  simp

theorem path_walk_root (g : dgraph_t) (parent : List Int) (room v : Nat) (tmp : List gkey_t)
    (hp : parent[v]? = some (v : Int)) :
    path_walk g parent room (v : Int) tmp = .ok tmp := by
  unfold path_walk
  have h1 : ¬ ((v : Int) = -1) := by omega
  simp [h1, hp]

theorem path_walk_step (g : dgraph_t) (parent : List Int) (room v : Nat) (tmp : List gkey_t)
    (p : Int) (hp : parent[v]? = some p) (hne : (v : Int) ≠ p) (nd : dnode_t)
    (hnd : g.nodes[v]? = some nd) :
    path_walk g parent (room + 1) (v : Int) tmp =
      path_walk g parent room p (tmp ++ [nd.key]) := by
  conv => lhs; unfold path_walk
  have h1 : ¬ ((v : Int) = -1) := by omega
  simp [h1, hp, hne, hnd]

/-- From a visited node `v` at distance `d` the parent walk collects `d`
keys, and the source key followed by their reversal is a path of the graph
that ends at `v`. -/
theorem walk_up {g : dgraph_t} {s : Nat} {st : bfs_state} (h : Final g s st) (ns : dnode_t)
    (hns : g.nodes[s]? = some ns) :
    ∀ (d v : Nat) (tmp : List gkey_t) (room : Nat), dv st v = (d : Int) → d ≤ room →
      ∃ nv ks, g.nodes[v]? = some nv ∧
        path_walk g st.R.parent room (v : Int) tmp = .ok (tmp ++ ks) ∧ ks.length = d ∧
        List.Chain' (key_edge g) (ns.key :: ks.reverse) ∧
        (ns.key :: ks.reverse).getLast? = some nv.key := by
  intro d
  induction d with
  | zero =>
    intro v tmp room hd _
    have hvis : dv st v ≠ -1 := by rw [hd]; decide
    have hvs : v = s := by
      by_contra hne
      obtain ⟨p, _, hp, _, hpd⟩ := h.par v hvis hne
      obtain ⟨dp, hdp, _, _⟩ := h.sound p hp
      rw [hd, hdp] at hpd
      push_cast at hpd
      omega
    subst hvs
    have hlt : v < g.nodes.length := (List.getElem?_eq_some.mp hns).1
    refine ⟨ns, [], hns, ?_, rfl, by simp, by simp⟩
    rw [List.append_nil]
    exact path_walk_root g _ room v tmp (by rw [h.parent_get hlt, h.src_p])
  | succ d ih =>
    intro v tmp room hd hroom
    have hvis : dv st v ≠ -1 := by rw [hd]; push_cast; omega
    have hvs : v ≠ s := by
      intro e; rw [e, h.src_d] at hd; push_cast at hd; omega
    obtain ⟨p, hpv, hp, hc, hpd⟩ := h.par v hvis hvs
    have hdp : dv st p = (d : Int) := by rw [hd] at hpd; push_cast at hpd; omega
    obtain ⟨dd, _, hw, _⟩ := h.sound v hvis
    have hlt : v < g.nodes.length := walk_lt (cwalk_walk hw)
    obtain ⟨nv, hnv⟩ : ∃ nv, g.nodes[v]? = some nv :=
      ⟨g.nodes[v], List.getElem?_eq_getElem hlt⟩
    obtain ⟨r, hr⟩ : ∃ r, room = r + 1 := ⟨room - 1, by omega⟩
    subst hr
    obtain ⟨np, ks, hnp, hpw, hlen, hch, hlast⟩ := ih p (tmp ++ [nv.key]) r hdp (by omega)
    have hne : (v : Int) ≠ (p : Int) := by
      intro e
      have : v = p := by exact_mod_cast e
      rw [this] at hpd
      omega
    have hke : key_edge g np.key nv.key := by
      obtain ⟨nd, k, h1, h2, h3⟩ := hc
      rw [hnp] at h1; cases h1
      obtain ⟨nv2, h4, h5, _⟩ := key_to_idx_of_nat g k v h3
      rw [hnv] at h4; cases h4
      exact ⟨p, np, hnp, rfl, by rw [h5]; exact h2⟩
    refine ⟨nv, nv.key :: ks, hnv, ?_, by simp [hlen], ?_, ?_⟩
    · rw [path_walk_step g _ r v tmp (p : Int) (by rw [h.parent_get hlt, hpv]) hne nv hnv, hpw]
      simp
    · rw [List.reverse_cons, ← List.cons_append]
      refine List.Chain'.append hch (List.chain'_singleton _) ?_
      intro x hx y hy
      rw [hlast] at hx
      simp at hx hy
      subst hx; subst hy
      exact hke
    · rw [List.reverse_cons, ← List.cons_append, List.getLast?_concat]

/-- The result of `dg_build_path` once the parent walk has returned `tmp`:
the first-key test compares the key just written from `nodes[src]` with
`src_key`, which are equal. -/
theorem build_path_eq (g : dgraph_t) (src_key dst_key : gkey_t) (R : bfs_result_t)
    (si di : Nat) (hs : key_to_idx g src_key = (si : Int))
    (hd : key_to_idx g dst_key = (di : Int)) (tmp : List gkey_t)
    (hw : path_walk g R.parent g.nodes.length (di : Int) [] = .ok tmp)
    (hlen : tmp.length < g.nodes.length) :
    dg_build_path g src_key dst_key (some R) = .ok (some (src_key :: tmp.reverse)) := by
  obtain ⟨nd, hnd, hkey, _⟩ := key_to_idx_of_nat g src_key si hs
  unfold dg_build_path
  simp [hs, hd, hw, hlen, hnd, hkey]

theorem build_path_visited {g : dgraph_t} {s : Nat} {st : bfs_state} (h : Final g s st)
    (src_key dst_key : gkey_t) (di : Nat) (hs : key_to_idx g src_key = (s : Int))
    (hd : key_to_idx g dst_key = (di : Int)) (d : Nat) (hdv : dv st di = (d : Int)) :
    ∃ ks : List gkey_t,
      dg_build_path g src_key dst_key (some st.R) = .ok (some (src_key :: ks.reverse)) ∧
      ks.length = d ∧ List.Chain' (key_edge g) (src_key :: ks.reverse) ∧
      (src_key :: ks.reverse).getLast? = some dst_key := by
  obtain ⟨ns, hns, hkey, _⟩ := key_to_idx_of_nat g src_key s hs
  obtain ⟨ndst, hndst, hdkey, _⟩ := key_to_idx_of_nat g dst_key di hd
  have hvis : dv st di ≠ -1 := by rw [hdv]; omega
  obtain ⟨d2, hd2, _, hlt⟩ := h.sound di hvis
  have hdd : d2 = d := by rw [hdv] at hd2; exact_mod_cast hd2.symm
  subst hdd
  obtain ⟨nv, ks, hnv, hpw, hlen, hch, hlast⟩ :=
    walk_up h ns hns d2 di [] g.nodes.length hdv (by omega)
  rw [hndst] at hnv; cases hnv
  rw [List.nil_append] at hpw
  rw [hkey] at hch hlast
  rw [hdkey] at hlast
  exact ⟨ks, build_path_eq g src_key dst_key st.R s di hs hd ks hpw (by omega), hlen, hch, hlast⟩

/-- For a destination that the search has not reached the walk stops after
one key and the result is the two keys `src_key`, `dst_key`. -/
theorem build_path_unvisited {g : dgraph_t} {s : Nat} {st : bfs_state} (h : Final g s st)
    (hn : 2 ≤ g.nodes.length) (src_key dst_key : gkey_t) (si di : Nat)
    (hs : key_to_idx g src_key = (si : Int)) (hd : key_to_idx g dst_key = (di : Int))
    (hdv : dv st di = -1) :
    dg_build_path g src_key dst_key (some st.R) = .ok (some [src_key, dst_key]) := by
  obtain ⟨ndst, hndst, hdkey, hlt⟩ := key_to_idx_of_nat g dst_key di hd
  obtain ⟨r, hr⟩ : ∃ r, g.nodes.length = r + 1 := ⟨g.nodes.length - 1, by omega⟩
  have hpw : path_walk g st.R.parent g.nodes.length (di : Int) [] = .ok [dst_key] := by
    rw [hr, path_walk_step g _ r di [] (-1) (by rw [h.parent_get hlt, h.unv di hdv]) (by omega)
      ndst hndst, path_walk_none, hdkey]
    rfl
  have := build_path_eq g src_key dst_key st.R si di hs hd [dst_key] hpw (by simp; omega)
  simpa using this

/-! ## The claims on `dg_bfs` -/

/-- C1. With pairwise distinct keys and a present source key, `dg_bfs` on a
graph of at least two nodes returns (with any fuel of at least `n`) a result
in which `dist[v]`, for every node `v` reachable from the source, is the
least number of edges of a directed path from the source to `v`; on a graph
of exactly one node `dg_bfs` never returns. -/
theorem dg_bfs_shortest (g : dgraph_t) (src_key : gkey_t) (s : Nat)
    (hd : keys_distinct g) (hs : key_to_idx g src_key = (s : Int)) :
    (g.nodes.length = 1 → ∀ fuel, dg_bfs fuel g src_key = .error .out_of_fuel) ∧
    (2 ≤ g.nodes.length → ∀ fuel, g.nodes.length ≤ fuel →
      ∃ R, dg_bfs fuel g src_key = .ok R ∧
        ∀ v, reachable g s v →
          ∃ d : Nat, R.dist[v]? = some (d : Int) ∧ walk g s v d ∧ ∀ k, walk g s v k → d ≤ k) := by
  refine ⟨fun hn fuel => dg_bfs_single g hn src_key (by rw [hs]; omega) fuel, ?_⟩
  intro hn fuel hf
  obtain ⟨st, E, hrun, ho⟩ := dg_bfs_runs g src_key s hs hn fuel hf
  have hF := ho.final
  refine ⟨st.R, hrun, ?_⟩
  rintro v ⟨k, hw⟩
  obtain ⟨hvis, _⟩ := hF.least v k (walk_cwalk hd hw)
  obtain ⟨d, hdv, hcw, _⟩ := hF.sound v hvis
  refine ⟨d, by rw [hF.dist_get (walk_lt hw), hdv], cwalk_walk hcw, ?_⟩
  intro k2 hw2
  have := (hF.least v k2 (walk_cwalk hd hw2)).2
  rw [hdv] at this
  exact_mod_cast this

/-- C6. The queue loop of `dg_bfs` exits within `n` iterations on every
graph of at least two nodes, and never exits on a graph of exactly one node
(for a present source key). -/
theorem dg_bfs_termination (g : dgraph_t) (src_key : gkey_t) (hs : has_key g src_key) :
    (g.nodes.length = 1 → ∀ fuel, dg_bfs fuel g src_key = .error .out_of_fuel) ∧
    (2 ≤ g.nodes.length → ∀ fuel, g.nodes.length ≤ fuel →
      ∃ R, dg_bfs fuel g src_key = .ok R) := by
  have h0 := (has_key_iff g src_key).mp hs
  refine ⟨fun hn fuel => dg_bfs_single g hn src_key h0 fuel, ?_⟩
  intro hn fuel hf
  obtain ⟨s, _, hks, _, _, _⟩ := key_to_idx_some g src_key h0
  obtain ⟨st, E, hrun, _⟩ := dg_bfs_runs g src_key s hks hn fuel hf
  exact ⟨st.R, hrun⟩

/-- C7. For a present source key whose node has index `s`, `dg_bfs` on a
graph of at least two nodes returns a result with `dist[s] = 0` and
`parent[s] = s`; on a graph of exactly one node it never returns. -/
theorem dg_bfs_source (g : dgraph_t) (src_key : gkey_t) (s : Nat)
    (hs : key_to_idx g src_key = (s : Int)) :
    (g.nodes.length = 1 → ∀ fuel, dg_bfs fuel g src_key = .error .out_of_fuel) ∧
    (2 ≤ g.nodes.length → ∀ fuel, g.nodes.length ≤ fuel →
      ∃ R, dg_bfs fuel g src_key = .ok R ∧ R.dist[s]? = some 0 ∧
        R.parent[s]? = some (s : Int)) := by
  refine ⟨fun hn fuel => dg_bfs_single g hn src_key (by rw [hs]; omega) fuel, ?_⟩
  intro hn fuel hf
  obtain ⟨st, E, hrun, ho⟩ := dg_bfs_runs g src_key s hs hn fuel hf
  have hF := ho.final
  obtain ⟨_, _, _, hlt⟩ := key_to_idx_of_nat g src_key s hs
  exact ⟨st.R, hrun, by rw [hF.dist_get hlt, hF.src_d], by rw [hF.parent_get hlt, hF.src_p]⟩

/-- C8, amended. With pairwise distinct keys, a present source key and at
least two nodes, `dg_bfs` returns a result in which every node `v` other
than the source that is reachable from the source has a parent entry `p`
with `dist[v] = dist[p] + 1`. -/
theorem dg_bfs_parent_level (g : dgraph_t) (src_key : gkey_t) (s : Nat)
    (hd : keys_distinct g) (hs : key_to_idx g src_key = (s : Int))
    (hn : 2 ≤ g.nodes.length) (fuel : Nat) (hf : g.nodes.length ≤ fuel) :
    ∃ R, dg_bfs fuel g src_key = .ok R ∧
      ∀ v, v ≠ s → reachable g s v →
        ∃ (p : Nat) (dp : Int), R.parent[v]? = some (p : Int) ∧ R.dist[p]? = some dp ∧
          R.dist[v]? = some (dp + 1) := by
  obtain ⟨st, E, hrun, ho⟩ := dg_bfs_runs g src_key s hs hn fuel hf
  have hF := ho.final
  refine ⟨st.R, hrun, ?_⟩
  rintro v hvs ⟨k, hw⟩
  obtain ⟨hvis, _⟩ := hF.least v k (walk_cwalk hd hw)
  obtain ⟨p, hpv, hpvis, _, hlev⟩ := hF.par v hvis hvs
  have hpl : p < g.nodes.length := by
    have := getD_ne_lt st.R.dist p hpvis
    rw [hF.len_d] at this; exact this
  exact ⟨p, dv st p, by rw [hF.parent_get (walk_lt hw), hpv], hF.dist_get hpl,
    by rw [hF.dist_get (walk_lt hw), hlev]⟩

/-- C9. With pairwise distinct keys and a present source key, `dg_bfs` on a
graph of at least two nodes returns a result in which every node that is not
reachable from the source has `dist = -1` and `parent = -1`, and every node
with `dist = -1` is not reachable; on a graph of exactly one node it never
returns. -/
theorem dg_bfs_unreached (g : dgraph_t) (src_key : gkey_t) (s : Nat)
    (hd : keys_distinct g) (hs : key_to_idx g src_key = (s : Int)) :
    (g.nodes.length = 1 → ∀ fuel, dg_bfs fuel g src_key = .error .out_of_fuel) ∧
    (2 ≤ g.nodes.length → ∀ fuel, g.nodes.length ≤ fuel →
      ∃ R, dg_bfs fuel g src_key = .ok R ∧
        ∀ v, v < g.nodes.length →
          (¬ reachable g s v → R.dist[v]? = some (-1) ∧ R.parent[v]? = some (-1)) ∧
          (R.dist[v]? = some (-1) → ¬ reachable g s v)) := by
  refine ⟨fun hn fuel => dg_bfs_single g hn src_key (by rw [hs]; omega) fuel, ?_⟩
  intro hn fuel hf
  obtain ⟨st, E, hrun, ho⟩ := dg_bfs_runs g src_key s hs hn fuel hf
  have hF := ho.final
  refine ⟨st.R, hrun, ?_⟩
  intro v hv
  constructor
  · intro hnr
    have hdv : dv st v = -1 := by
      by_contra hvis
      obtain ⟨d, _, hcw, _⟩ := hF.sound v hvis
      exact hnr ⟨d, cwalk_walk hcw⟩
    exact ⟨by rw [hF.dist_get hv, hdv], by rw [hF.parent_get hv, hF.unv v hdv]⟩
  · rintro hget ⟨k, hw⟩
    exact (hF.least v k (walk_cwalk hd hw)).1 (dv_eq_of_get hget)

/-- C1 at two inputs: the single-node graph, where `dg_bfs` never returns,
and the graph `0 -> 1`, where the distances are the shortest ones. -/
theorem dg_bfs_shortest_witness :
    (∀ fuel, dg_bfs fuel single_graph 7 = .error .out_of_fuel) ∧
    (∃ R, dg_bfs 2 edge_graph 0 = .ok R ∧
      ∀ v, reachable edge_graph 0 v →
        ∃ d : Nat, R.dist[v]? = some (d : Int) ∧ walk edge_graph 0 v d ∧
          ∀ k, walk edge_graph 0 v k → d ≤ k) :=
  ⟨(dg_bfs_shortest single_graph 7 0 (by decide) (by decide)).1 (by decide),
   (dg_bfs_shortest edge_graph 0 0 (by decide) (by decide)).2 (by decide) 2 (by decide)⟩

/-- C6 at two inputs: the single-node graph and the graph `0 -> 1`. -/
theorem dg_bfs_termination_witness :
    (∀ fuel, dg_bfs fuel single_graph 7 = .error .out_of_fuel) ∧
    (∃ R, dg_bfs 2 edge_graph 0 = .ok R) :=
  ⟨(dg_bfs_termination single_graph 7 (by decide)).1 (by decide),
   (dg_bfs_termination edge_graph 0 (by decide)).2 (by decide) 2 (by decide)⟩

/-- C7 at two inputs: the single-node graph and the graph `0 -> 1`. -/
theorem dg_bfs_source_witness :
    (∀ fuel, dg_bfs fuel single_graph 7 = .error .out_of_fuel) ∧
    (∃ R, dg_bfs 2 edge_graph 1 = .ok R ∧ R.dist[1]? = some 0 ∧
      R.parent[1]? = some ((1 : Nat) : Int)) :=
  ⟨(dg_bfs_source single_graph 7 0 (by decide)).1 (by decide),
   (dg_bfs_source edge_graph 1 1 (by decide)).2 (by decide) 2 (by decide)⟩

/-- C8 as stated fails at the source node: on the graph `0 -> 1` searched
from key 0 the source is reachable, has `dist = 0` and is its own parent, so
`dist[0] = dist[parent[0]] + 1` is false. -/
theorem dg_bfs_parent_level_source :
    keys_distinct edge_graph ∧ key_to_idx edge_graph 0 = 0 ∧ reachable edge_graph 0 0 ∧
    ∃ R, dg_bfs 2 edge_graph 0 = .ok R ∧ R.dist[0]? = some 0 ∧ R.parent[0]? = some 0 ∧
      ¬ ∃ (p : Nat) (dp : Int), R.parent[0]? = some (p : Int) ∧ R.dist[p]? = some dp ∧
        R.dist[0]? = some (dp + 1) := by
  refine ⟨by decide, by decide, ⟨0, walk.here (by decide)⟩,
    { dist := [0, 1], parent := [0, 0] }, rfl, rfl, rfl, ?_⟩
  rintro ⟨p, dp, h1, h2, h3⟩
  simp at h1 h3
  have hp : p = 0 := by omega
  subst hp
  simp at h2
  omega

/-- C8, amended, on the graph `0 -> 1` searched from key 0. -/
theorem dg_bfs_parent_level_witness :
    ∃ R, dg_bfs 2 edge_graph 0 = .ok R ∧
      ∀ v, v ≠ 0 → reachable edge_graph 0 v →
        ∃ (p : Nat) (dp : Int), R.parent[v]? = some (p : Int) ∧ R.dist[p]? = some dp ∧
          R.dist[v]? = some (dp + 1) :=
  dg_bfs_parent_level edge_graph 0 0 (by decide) (by decide) (by decide) 2 (by decide)

/-- C9 at two inputs: the single-node graph and the graph `0 -> 1`
searched from key 1, from which node 0 is not reachable. -/
theorem dg_bfs_unreached_witness :
    (∀ fuel, dg_bfs fuel single_graph 7 = .error .out_of_fuel) ∧
    (∃ R, dg_bfs 2 edge_graph 1 = .ok R ∧
      ∀ v, v < edge_graph.nodes.length →
        (¬ reachable edge_graph 1 v → R.dist[v]? = some (-1) ∧ R.parent[v]? = some (-1)) ∧
        (R.dist[v]? = some (-1) → ¬ reachable edge_graph 1 v)) :=
  ⟨(dg_bfs_unreached single_graph 7 0 (by decide) (by decide)).1 (by decide),
   (dg_bfs_unreached edge_graph 1 1 (by decide) (by decide)).2 (by decide) 2 (by decide)⟩

/-! ## The claims on `dg_build_path` -/

/-- Whatever source the result was computed from, `dg_build_path` with
present endpoints returns a sequence that starts with `src_key`. -/
theorem build_path_nonempty {g : dgraph_t} {s : Nat} {st : bfs_state} (h : Final g s st)
    (hn : 2 ≤ g.nodes.length) (src_key dst_key : gkey_t) (si di : Nat)
    (hs : key_to_idx g src_key = (si : Int)) (hd : key_to_idx g dst_key = (di : Int)) :
    ∃ ks : List gkey_t,
      dg_build_path g src_key dst_key (some st.R) = .ok (some (src_key :: ks)) ∧
      ks.length < g.nodes.length := by
  by_cases hdv : dv st di = -1
  · exact ⟨[dst_key], build_path_unvisited h hn src_key dst_key si di hs hd hdv,
      by simp; omega⟩
  · obtain ⟨d, hdd, _, hlt⟩ := h.sound di hdv
    have hsl : s < g.nodes.length := by
      have h0 : dv st s ≠ -1 := by rw [h.src_d]; decide
      have := getD_ne_lt st.R.dist s h0
      rw [h.len_d] at this; exact this
    obtain ⟨nv, ks, _, hpw, hlen, _, _⟩ :=
      walk_up h g.nodes[s] (List.getElem?_eq_getElem hsl) d di [] g.nodes.length hdd (by omega)
    rw [List.nil_append] at hpw
    exact ⟨ks.reverse, build_path_eq g src_key dst_key st.R si di hs hd ks hpw (by omega),
      by simp; omega⟩

/-- C2. With pairwise distinct keys, present keys `src_key` and `dst_key`
and the destination reachable from the source, on a graph of at least two
nodes `dg_build_path` on the result of `dg_bfs` returns a sequence that
starts with `src_key`, ends with `dst_key`, has `dist[dst] + 1` keys, and
whose consecutive pairs are edges (for `src_key = dst_key` it is
`[src_key]`); on a graph of exactly one node `dg_bfs` never returns. -/
theorem dg_build_path_reachable (g : dgraph_t) (src_key dst_key : gkey_t) (s d : Nat)
    (hd : keys_distinct g) (hs : key_to_idx g src_key = (s : Int))
    (hdst : key_to_idx g dst_key = (d : Int)) (hr : reachable g s d) :
    (g.nodes.length = 1 → ∀ fuel, dg_bfs fuel g src_key = .error .out_of_fuel) ∧
    (2 ≤ g.nodes.length → ∀ fuel, g.nodes.length ≤ fuel →
      ∃ (R : bfs_result_t) (path : List gkey_t) (dd : Nat),
        dg_bfs fuel g src_key = .ok R ∧
        dg_build_path g src_key dst_key (some R) = .ok (some path) ∧
        R.dist[d]? = some (dd : Int) ∧ path.length = dd + 1 ∧
        path.head? = some src_key ∧ path.getLast? = some dst_key ∧
        List.Chain' (key_edge g) path ∧ (src_key = dst_key → path = [src_key])) := by
  refine ⟨fun hn fuel => dg_bfs_single g hn src_key (by rw [hs]; omega) fuel, ?_⟩
  intro hn fuel hf
  obtain ⟨st, E, hrun, ho⟩ := dg_bfs_runs g src_key s hs hn fuel hf
  have hF := ho.final
  obtain ⟨k, hw⟩ := hr
  obtain ⟨hvis, _⟩ := hF.least d k (walk_cwalk hd hw)
  obtain ⟨dd, hdd, _, _⟩ := hF.sound d hvis
  obtain ⟨ks, hbp, hlen, hch, hlast⟩ := build_path_visited hF src_key dst_key d hs hdst dd hdd
  refine ⟨st.R, src_key :: ks.reverse, dd, hrun, hbp, by rw [hF.dist_get (walk_lt hw), hdd],
    by simp [hlen], rfl, hlast, hch, ?_⟩
  intro he
  have hsd : s = d := by
    rw [he, hdst] at hs
    exact_mod_cast hs.symm
  have hd0 : dd = 0 := by
    rw [← hsd, hF.src_d] at hdd
    exact_mod_cast hdd.symm
  have : ks = [] := List.length_eq_zero.mp (by rw [hlen, hd0])
  rw [this]; rfl

/-- C3 on the code: for present keys with the destination not reachable
from the source, `dg_build_path` on the result of `dg_bfs` returns the two
keys `src_key`, `dst_key`, not the empty result. -/
theorem dg_build_path_unreachable (g : dgraph_t) (src_key dst_key : gkey_t) (s d : Nat)
    (hs : key_to_idx g src_key = (s : Int)) (hdst : key_to_idx g dst_key = (d : Int))
    (hnr : ¬ reachable g s d) (fuel : Nat) (hf : g.nodes.length ≤ fuel) :
    ∃ R, dg_bfs fuel g src_key = .ok R ∧
      dg_build_path g src_key dst_key (some R) = .ok (some [src_key, dst_key]) := by
  obtain ⟨_, _, _, hsl⟩ := key_to_idx_of_nat g src_key s hs
  obtain ⟨_, _, _, hdl⟩ := key_to_idx_of_nat g dst_key d hdst
  have hne : s ≠ d := by
    intro e; subst e; exact hnr ⟨0, walk.here hsl⟩
  have hn : 2 ≤ g.nodes.length := by omega
  obtain ⟨st, E, hrun, ho⟩ := dg_bfs_runs g src_key s hs hn fuel hf
  have hF := ho.final
  have hdv : dv st d = -1 := by
    by_contra hvis
    obtain ⟨k, _, hcw, _⟩ := hF.sound d hvis
    exact hnr ⟨k, cwalk_walk hcw⟩
  exact ⟨st.R, hrun, build_path_unvisited hF hn src_key dst_key s d hs hdst hdv⟩

/-- C4 on the code: for present keys `s_key`, `src_key`, `dst_key` with
`s_key` different from `src_key`, `dg_build_path g src_key dst_key` on the
result of `dg_bfs g s_key` returns a sequence that starts with `src_key`,
not the empty result. -/
theorem dg_build_path_other_source (g : dgraph_t) (s_key src_key dst_key : gkey_t)
    (hs : has_key g s_key) (hsrc : has_key g src_key) (hdst : has_key g dst_key)
    (hne : s_key ≠ src_key) (fuel : Nat) (hf : g.nodes.length ≤ fuel) :
    ∃ (R : bfs_result_t) (ks : List gkey_t), dg_bfs fuel g s_key = .ok R ∧
      dg_build_path g src_key dst_key (some R) = .ok (some (src_key :: ks)) := by
  obtain ⟨s, ns, hks, hns, hnsk, hsl⟩ := key_to_idx_some g s_key ((has_key_iff g s_key).mp hs)
  obtain ⟨si, nsi, hksi, hnsi, hnsik, hsil⟩ :=
    key_to_idx_some g src_key ((has_key_iff g src_key).mp hsrc)
  obtain ⟨di, _, hkdi, _, _, _⟩ := key_to_idx_some g dst_key ((has_key_iff g dst_key).mp hdst)
  have hidx : s ≠ si := by
    intro e; subst e
    rw [hns] at hnsi; cases hnsi
    exact hne (hnsk.symm.trans hnsik)
  have hn : 2 ≤ g.nodes.length := by omega
  obtain ⟨st, E, hrun, ho⟩ := dg_bfs_runs g s_key s hks hn fuel hf
  obtain ⟨ks, hbp, _⟩ := build_path_nonempty ho.final hn src_key dst_key si di hksi hkdi
  exact ⟨st.R, ks, hrun, hbp⟩

/-- C5. When `src_key` is not a key of the graph, or `dst_key` is not, or
the result pointer is null, `dg_build_path` returns the empty result and
does not fail. -/
theorem dg_build_path_guard (g : dgraph_t) (src_key dst_key : gkey_t)
    (R : Option bfs_result_t)
    (h : ¬ has_key g src_key ∨ ¬ has_key g dst_key ∨ R = none) :
    dg_build_path g src_key dst_key R = .ok none := by
  unfold dg_build_path
  by_cases h1 : key_to_idx g src_key < 0 ∨ key_to_idx g dst_key < 0
  · simp only [h1, if_true]
  · have h2 := not_or.mp h1
    rcases h with h | h | h
    · exact absurd ((has_key_iff g src_key).mpr (not_lt.mp h2.1)) h
    · exact absurd ((has_key_iff g dst_key).mpr (not_lt.mp h2.2)) h
    · subst h
      simp only [h1, if_false]

theorem two_graph_no_edge (u v : Nat) : ¬ edge two_graph u v := by
  rintro ⟨nu, nv, h1, _, h3⟩
  have hnodes : two_graph.nodes = [mk_node 0, mk_node 1] := by decide
  rw [hnodes] at h1
  match u, h1 with
  | 0, h1 => simp at h1; subst h1; simp [mk_node] at h3
  | 1, h1 => simp at h1; subst h1; simp [mk_node] at h3
  | u + 2, h1 => simp at h1

theorem two_graph_unreachable : ¬ reachable two_graph 0 1 := by
  rintro ⟨k, hw⟩
  cases hw with
  | step _ he => exact two_graph_no_edge _ _ he

/-- C2 at two inputs: the single-node graph and the graph `0 -> 1`. -/
theorem dg_build_path_reachable_witness :
    (∀ fuel, dg_bfs fuel single_graph 7 = .error .out_of_fuel) ∧
    (∃ (R : bfs_result_t) (path : List gkey_t) (dd : Nat),
      dg_bfs 2 edge_graph 0 = .ok R ∧
      dg_build_path edge_graph 0 1 (some R) = .ok (some path) ∧
      R.dist[1]? = some (dd : Int) ∧ path.length = dd + 1 ∧
      path.head? = some 0 ∧ path.getLast? = some 1 ∧
      List.Chain' (key_edge edge_graph) path ∧ ((0 : gkey_t) = 1 → path = [0])) :=
  ⟨(dg_build_path_reachable single_graph 7 7 0 0 (by decide) (by decide) (by decide)
      ⟨0, walk.here (by decide)⟩).1 (by decide),
   (dg_build_path_reachable edge_graph 0 1 0 1 (by decide) (by decide) (by decide)
      ⟨1, walk.step (walk.here (by decide))
        ⟨edge_graph.nodes[0], edge_graph.nodes[1], rfl, rfl, by decide⟩⟩).2
      (by decide) 2 (by decide)⟩

/-- C3 at the graph with the nodes 0 and 1 and no edge, from 0 to 1. -/
theorem dg_build_path_unreachable_witness :
    ∃ R, dg_bfs 2 two_graph 0 = .ok R ∧
      dg_build_path two_graph 0 1 (some R) = .ok (some [0, 1]) :=
  dg_build_path_unreachable two_graph 0 1 0 1 (by decide) (by decide) two_graph_unreachable
    2 (by decide)

/-- C4 at the graph with the nodes 0 and 1 and no edge: the result of the
search from key 0 used for a path from key 1 to key 0. -/
theorem dg_build_path_other_source_witness :
    ∃ (R : bfs_result_t) (ks : List gkey_t), dg_bfs 2 two_graph 0 = .ok R ∧
      dg_build_path two_graph 1 0 (some R) = .ok (some (1 :: ks)) :=
  dg_build_path_other_source two_graph 0 1 0 (by decide) (by decide) (by decide) (by decide)
    2 (by decide)

/-- C5 at the graph with the nodes 0 and 1: the absent key 5 as source. -/
theorem dg_build_path_guard_witness :
    dg_build_path two_graph 5 0 (some { dist := [0, -1], parent := [0, -1] }) = .ok none :=
  dg_build_path_guard two_graph 5 0 _ (Or.inl (by decide))

/-! ## The claims on `dg_add_node` -/

theorem scan_from_set (nodes : List dnode_t) (ix : Nat) (old nd : dnode_t)
    (hold : nodes[ix]? = some old) (hkey : nd.key = old.key) (i : Nat) (k : gkey_t) :
    scan_from (nodes.set ix nd) i k = scan_from nodes i k := by
  induction nodes generalizing ix i with
  | nil => simp at hold
  | cons a t ih =>
    cases ix with
    | zero =>
      simp at hold
      subst hold
      simp [scan_from, hkey]
    | succ j =>
      simp at hold
      simp only [List.set_cons_succ, scan_from]
      rw [ih j hold]

theorem find_index_some (g : dgraph_t) (k : gkey_t) (h : has_key g k) :
    ∃ (ix : Nat) (nd : dnode_t), dg_find_index g k = (ix : Int) ∧ g.nodes[ix]? = some nd ∧
      nd.key = k ∧ ix < g.nodes.length :=
  key_to_idx_some g k ((has_key_iff g k).mp h)

theorem dg_children_at (g : dgraph_t) (k : gkey_t) (ix : Nat) (nd : dnode_t)
    (hfi : dg_find_index g k = (ix : Int)) (hnd : g.nodes[ix]? = some nd) :
    dg_children g k = (1, some nd.out.data) := by
  unfold dg_children
  have hneg : ¬ ((ix : Int) < 0) := by omega
  simp [hfi, hnd, hneg]

theorem dg_value_at (g : dgraph_t) (k : gkey_t) (ix : Nat) (nd : dnode_t)
    (hfi : dg_find_index g k = (ix : Int)) (hnd : g.nodes[ix]? = some nd) :
    dg_value g k = .ok nd.value := by
  unfold dg_value
  simp [hfi, hnd]

theorem dg_owner_at (g : dgraph_t) (k : gkey_t) (ix : Nat) (nd : dnode_t)
    (hfi : dg_find_index g k = (ix : Int)) (hnd : g.nodes[ix]? = some nd) :
    dg_owner g k = .ok nd.owner := by
  unfold dg_owner
  simp [hfi, hnd]

theorem find_index_absent (g : dgraph_t) (k : gkey_t) (h : ¬ has_key g k) :
    dg_find_index g k = -1 :=
  key_to_idx_absent g k (fun h0 => h ((has_key_iff g k).mpr h0))

/-- C10. For a key `k` already in the graph, `dg_add_node` returns 0 and
keeps the number of nodes (and the capacity); the node it updates is the
node of `k` (its key is `k`), which keeps its key and its out list and gets
the new value and owner; every other node, by position and by key, keeps
every field; so `dg_children` of `k` and `dg_children`, `dg_value` and
`dg_owner` of every other key are as before, and afterwards `dg_value` and
`dg_owner` of `k` are the new value and owner. -/
theorem dg_add_node_existing (g : dgraph_t) (k : gkey_t) (value : Nat) (owner : owner_t)
    (hk : has_key g k) :
    ∃ (ix : Nat) (old : dnode_t), dg_find_index g k = (ix : Int) ∧ g.nodes[ix]? = some old ∧
      old.key = k ∧
      (dg_add_node g k value owner).2 = 0 ∧
      (dg_add_node g k value owner).1.cap = g.cap ∧
      (dg_add_node g k value owner).1.nodes.length = g.nodes.length ∧
      (dg_add_node g k value owner).1.nodes[ix]? =
        some { key := k, value := value, owner := owner, out := old.out } ∧
      (∀ i, i ≠ ix → (dg_add_node g k value owner).1.nodes[i]? = g.nodes[i]?) ∧
      (∀ (i : Nat) (nd : dnode_t), g.nodes[i]? = some nd → nd.key ≠ k →
        (dg_add_node g k value owner).1.nodes[i]? = some nd) ∧
      (∀ (i : Nat) (nd : dnode_t), (dg_add_node g k value owner).1.nodes[i]? = some nd →
        ∃ nd0 : dnode_t, g.nodes[i]? = some nd0 ∧ nd0.key = nd.key ∧ nd0.out = nd.out) ∧
      dg_children g k = (1, some old.out.data) ∧
      dg_children (dg_add_node g k value owner).1 k = (1, some old.out.data) ∧
      dg_value (dg_add_node g k value owner).1 k = .ok value ∧
      dg_owner (dg_add_node g k value owner).1 k = .ok owner ∧
      (∀ k2, k2 ≠ k →
        dg_children (dg_add_node g k value owner).1 k2 = dg_children g k2 ∧
        dg_value (dg_add_node g k value owner).1 k2 = dg_value g k2 ∧
        dg_owner (dg_add_node g k value owner).1 k2 = dg_owner g k2) := by
  obtain ⟨ix, old, hfi, hold, hkey, hlt⟩ := find_index_some g k hk
  have hadd : dg_add_node g k value owner =
      (({ nodes := g.nodes.set ix ⟨k, value, owner, old.out⟩, cap := g.cap } :
        dgraph_t), 0) := by
    unfold dg_add_node
    simp [hfi, hold, hkey]
  have hfind : ∀ k2, dg_find_index
      ({ nodes := g.nodes.set ix ⟨k, value, owner, old.out⟩, cap := g.cap } : dgraph_t)
      k2 = dg_find_index g k2 := by
    intro k2
    unfold dg_find_index
    exact scan_from_set g.nodes ix old ⟨k, value, owner, old.out⟩ hold hkey.symm 0 k2
  have hget : (g.nodes.set ix
      ({ key := k, value := value, owner := owner, out := old.out } : dnode_t))[ix]? =
      some { key := k, value := value, owner := owner, out := old.out } := by
    rw [List.getElem?_set]; simp [hlt]
  have hother : ∀ i, i ≠ ix → (g.nodes.set ix
      ({ key := k, value := value, owner := owner, out := old.out } : dnode_t))[i]? =
      g.nodes[i]? := by
    intro i hi
    rw [List.getElem?_set, if_neg (fun e => hi e.symm)]
  rw [hadd]
  dsimp only
  refine ⟨ix, old, hfi, hold, hkey, rfl, rfl, by simp, hget, hother, ?_, ?_,
    dg_children_at g k ix old hfi hold, ?_, ?_, ?_, ?_⟩
  · intro i nd hnd hne
    have hi : i ≠ ix := by
      intro e; subst e
      rw [hold] at hnd; cases hnd
      exact hne hkey
    show (g.nodes.set ix _)[i]? = some nd
    rw [hother i hi]; exact hnd
  · intro i nd hnd
    by_cases hi : i = ix
    · subst hi
      have hnd2 : (g.nodes.set i
          ({ key := k, value := value, owner := owner, out := old.out } : dnode_t))[i]? =
          some nd := hnd
      rw [hget] at hnd2
      cases hnd2
      exact ⟨old, hold, hkey, rfl⟩
    · have hnd2 : (g.nodes.set ix
          ({ key := k, value := value, owner := owner, out := old.out } : dnode_t))[i]? =
          some nd := hnd
      rw [hother i hi] at hnd2
      exact ⟨nd, hnd2, rfl, rfl⟩
  · exact dg_children_at _ k ix ⟨k, value, owner, old.out⟩ (by rw [hfind]; exact hfi) hget
  · exact dg_value_at _ k ix ⟨k, value, owner, old.out⟩ (by rw [hfind]; exact hfi) hget
  · exact dg_owner_at _ k ix ⟨k, value, owner, old.out⟩ (by rw [hfind]; exact hfi) hget
  · intro k2 hk2
    by_cases hp : has_key g k2
    · obtain ⟨j, nd, hfj, hnj, hkj, _⟩ := find_index_some g k2 hp
      have hji : j ≠ ix := by
        intro e; subst e
        rw [hold] at hnj; cases hnj
        exact hk2 (hkj.symm.trans hkey)
      have hg1 := hother j hji
      rw [hnj] at hg1
      rw [dg_children_at g k2 j nd hfj hnj, dg_value_at g k2 j nd hfj hnj,
        dg_owner_at g k2 j nd hfj hnj,
        dg_children_at _ k2 j nd (by rw [hfind]; exact hfj) hg1,
        dg_value_at _ k2 j nd (by rw [hfind]; exact hfj) hg1,
        dg_owner_at _ k2 j nd (by rw [hfind]; exact hfj) hg1]
      exact ⟨rfl, rfl, rfl⟩
    · have ha := find_index_absent g k2 hp
      unfold dg_children dg_value dg_owner
      simp [hfind, ha]

/-- C10 at the graph with the nodes 0 and 1 and the edge `0 -> 1`: key 0
is added again with value 9 and owner `OWNER_REMOTE`. -/
theorem dg_add_node_existing_witness :
    ∃ (ix : Nat) (old : dnode_t), dg_find_index edge_graph 0 = (ix : Int) ∧
      edge_graph.nodes[ix]? = some old ∧ old.key = 0 ∧
      (dg_add_node edge_graph 0 9 .OWNER_REMOTE).2 = 0 ∧
      (dg_add_node edge_graph 0 9 .OWNER_REMOTE).1.cap = edge_graph.cap ∧
      (dg_add_node edge_graph 0 9 .OWNER_REMOTE).1.nodes.length = edge_graph.nodes.length ∧
      (dg_add_node edge_graph 0 9 .OWNER_REMOTE).1.nodes[ix]? =
        some { key := 0, value := 9, owner := .OWNER_REMOTE, out := old.out } ∧
      (∀ i, i ≠ ix →
        (dg_add_node edge_graph 0 9 .OWNER_REMOTE).1.nodes[i]? = edge_graph.nodes[i]?) ∧
      (∀ (i : Nat) (nd : dnode_t), edge_graph.nodes[i]? = some nd → nd.key ≠ 0 →
        (dg_add_node edge_graph 0 9 .OWNER_REMOTE).1.nodes[i]? = some nd) ∧
      (∀ (i : Nat) (nd : dnode_t),
        (dg_add_node edge_graph 0 9 .OWNER_REMOTE).1.nodes[i]? = some nd →
        ∃ nd0 : dnode_t, edge_graph.nodes[i]? = some nd0 ∧ nd0.key = nd.key ∧
          nd0.out = nd.out) ∧
      dg_children edge_graph 0 = (1, some old.out.data) ∧
      dg_children (dg_add_node edge_graph 0 9 .OWNER_REMOTE).1 0 = (1, some old.out.data) ∧
      dg_value (dg_add_node edge_graph 0 9 .OWNER_REMOTE).1 0 = .ok 9 ∧
      dg_owner (dg_add_node edge_graph 0 9 .OWNER_REMOTE).1 0 = .ok .OWNER_REMOTE ∧
      (∀ k2, k2 ≠ 0 →
        dg_children (dg_add_node edge_graph 0 9 .OWNER_REMOTE).1 k2 =
          dg_children edge_graph k2 ∧
        dg_value (dg_add_node edge_graph 0 9 .OWNER_REMOTE).1 k2 = dg_value edge_graph k2 ∧
        dg_owner (dg_add_node edge_graph 0 9 .OWNER_REMOTE).1 k2 = dg_owner edge_graph k2) :=
  dg_add_node_existing edge_graph 0 9 .OWNER_REMOTE (by decide)

/-- For an absent key `dg_add_node` appends one node. -/
theorem dg_add_node_absent (g : dgraph_t) (k : gkey_t) (value : Nat) (owner : owner_t)
    (hk : ¬ has_key g k) :
    (dg_add_node g k value owner).2 = 1 ∧
    (dg_add_node g k value owner).1.nodes =
      g.nodes ++ [{ key := k, value := value, owner := owner, out := { data := [], cap := 0 } }] := by
  have hneg : ¬ 0 ≤ dg_find_index g k := fun h => hk ((has_key_iff g k).mpr h)
  unfold dg_add_node
  simp only [hneg, if_false]
  refine ⟨trivial, ?_⟩
  split <;> rfl

/-- C11. For a key `k` that is not in the graph, `dg_add_node` returns 1,
the node array becomes the old one followed by one new node with key `k`,
the given value and owner and an empty out list; so the count grows by one
and every earlier node is at its position, unchanged. -/
theorem dg_add_node_fresh (g : dgraph_t) (k : gkey_t) (value : Nat) (owner : owner_t)
    (hk : ¬ has_key g k) :
    (dg_add_node g k value owner).2 = 1 ∧
    (dg_add_node g k value owner).1.nodes.length = g.nodes.length + 1 ∧
    (dg_add_node g k value owner).1.nodes[g.nodes.length]? =
      some { key := k, value := value, owner := owner, out := { data := [], cap := 0 } } ∧
    (∀ i, i < g.nodes.length → (dg_add_node g k value owner).1.nodes[i]? = g.nodes[i]?) ∧
    dg_value (dg_add_node g k value owner).1 k = .ok value ∧
    dg_owner (dg_add_node g k value owner).1 k = .ok owner := by
  obtain ⟨h1, h2⟩ := dg_add_node_absent g k value owner hk
  have hlast : (dg_add_node g k value owner).1.nodes[g.nodes.length]? =
      some { key := k, value := value, owner := owner, out := { data := [], cap := 0 } } := by
    rw [h2]; simp
  have hfi : dg_find_index (dg_add_node g k value owner).1 k = (g.nodes.length : Int) := by
    unfold dg_find_index
    rw [h2]
    rcases scan_from_spec (g.nodes ++
      [{ key := k, value := value, owner := owner, out := { data := [], cap := 0 } }]) 0 k with
      ⟨_, h4⟩ | ⟨j, nd, h3, h4, h5, h6⟩
    · exact absurd rfl (h4 ⟨k, value, owner, ⟨[], 0⟩⟩ (by simp))
    · have hj : j = g.nodes.length := by
        rcases Nat.lt_trichotomy j g.nodes.length with hlt | heq | hgt
        · rw [List.getElem?_append_left hlt] at h3
          obtain ⟨hl, he⟩ := List.getElem?_eq_some.mp h3
          exact absurd ⟨nd, he ▸ List.getElem_mem hl, h4⟩ hk
        · exact heq
        · have := h6 g.nodes.length ⟨k, value, owner, ⟨[], 0⟩⟩ hgt (by simp)
          exact absurd rfl this
      rw [h5, hj]; simp
  refine ⟨h1, by rw [h2]; simp, hlast, ?_, ?_, ?_⟩
  · intro i hi
    rw [h2, List.getElem?_append_left hi]
  · unfold dg_value
    simp [hfi, hlast]
  · unfold dg_owner
    simp [hfi, hlast]

/-- C11 at the graph with the nodes 0 and 1: key 2 is added. -/
theorem dg_add_node_fresh_witness :
    (dg_add_node two_graph 2 5 .OWNER_REMOTE).2 = 1 ∧
    (dg_add_node two_graph 2 5 .OWNER_REMOTE).1.nodes.length = two_graph.nodes.length + 1 ∧
    (dg_add_node two_graph 2 5 .OWNER_REMOTE).1.nodes[two_graph.nodes.length]? =
      some { key := 2, value := 5, owner := .OWNER_REMOTE, out := { data := [], cap := 0 } } ∧
    (∀ i, i < two_graph.nodes.length →
      (dg_add_node two_graph 2 5 .OWNER_REMOTE).1.nodes[i]? = two_graph.nodes[i]?) ∧
    dg_value (dg_add_node two_graph 2 5 .OWNER_REMOTE).1 2 = .ok 5 ∧
    dg_owner (dg_add_node two_graph 2 5 .OWNER_REMOTE).1 2 = .ok .OWNER_REMOTE :=
  dg_add_node_fresh two_graph 2 5 .OWNER_REMOTE (by decide)

/-! ## Graphs built through the interface -/

theorem keys_set (nodes : List dnode_t) (ix : Nat) (old nd : dnode_t)
    (hold : nodes[ix]? = some old) (hkey : nd.key = old.key) :
    (nodes.set ix nd).map dnode_t.key = nodes.map dnode_t.key := by
  induction nodes generalizing ix with
  | nil => simp at hold
  | cons a t ih =>
    cases ix with
    | zero =>
      simp at hold
      subst hold
      simp [hkey]
    | succ j =>
      simp at hold
      simp only [List.set_cons_succ, List.map_cons]
      rw [ih j hold]

theorem has_key_map (g : dgraph_t) (k : gkey_t) :
    has_key g k ↔ k ∈ g.nodes.map dnode_t.key := by
  unfold has_key
  rw [List.mem_map]

/-- What a successful `dg_add_edge` does to the node array. -/
theorem dg_add_edge_ok (g g1 : dgraph_t) (src dst : gkey_t)
    (h : dg_add_edge g src dst = .ok g1) :
    ∃ (ix : Nat) (old : dnode_t), dg_find_index g src = (ix : Int) ∧
      g.nodes[ix]? = some old ∧ old.key = src ∧ has_key g dst ∧
      g1.nodes = g.nodes.set ix
        ⟨old.key, old.value, old.owner, keyvec_push old.out dst⟩ ∧ g1.cap = g.cap := by
  unfold dg_add_edge at h
  by_cases hc : 0 ≤ dg_find_index g src ∧ 0 ≤ dg_find_index g dst
  · obtain ⟨ix, old, hfi, hold, hkey, _⟩ := key_to_idx_some g src hc.1
    have hfi2 : dg_find_index g src = (ix : Int) := hfi
    simp only [hc, and_self, if_true, hfi2, Int.toNat_ofNat, hold] at h
    cases h
    exact ⟨ix, old, hfi2, hold, hkey, (has_key_iff g dst).mpr hc.2, rfl, rfl⟩
  · simp only [hc, if_false] at h
    cases h

/-- The calls of `dg_add_node` and `dg_add_edge` keep the keys that were in
the node array, in order, and `dg_add_node` appends at most the new key. -/
theorem dg_add_node_keys (g : dgraph_t) (k : gkey_t) (value : Nat) (owner : owner_t) :
    (dg_add_node g k value owner).1.nodes.map dnode_t.key =
      if has_key g k then g.nodes.map dnode_t.key else g.nodes.map dnode_t.key ++ [k] := by
  by_cases hk : has_key g k
  · rw [if_pos hk]
    obtain ⟨ix, old, hfi, hold, _, _⟩ := find_index_some g k hk
    have hadd : (dg_add_node g k value owner).1.nodes =
        g.nodes.set ix ⟨old.key, value, owner, old.out⟩ := by
      unfold dg_add_node
      simp [hfi, hold]
    rw [hadd, keys_set g.nodes ix old ⟨old.key, value, owner, old.out⟩ hold rfl]
  · rw [if_neg hk, (dg_add_node_absent g k value owner hk).2]
    simp

theorem dg_add_edge_keys (g g1 : dgraph_t) (src dst : gkey_t)
    (h : dg_add_edge g src dst = .ok g1) :
    g1.nodes.map dnode_t.key = g.nodes.map dnode_t.key := by
  obtain ⟨ix, old, _, hold, _, _, hn, _⟩ := dg_add_edge_ok g g1 src dst h
  rw [hn, keys_set g.nodes ix old ⟨old.key, old.value, old.owner, keyvec_push old.out dst⟩
    hold rfl]

/-- C12. Every graph obtained from `dg_new` by calls of `dg_add_node` and
successful calls of `dg_add_edge` has pairwise distinct keys. -/
theorem built_keys_distinct (g : dgraph_t) (h : built g) : keys_distinct g := by
  induction h with
  | new cap_hint => exact List.nodup_nil
  | @add_node g key value owner _ ih =>
    unfold keys_distinct at *
    rw [dg_add_node_keys]
    by_cases hk : has_key g key
    · rw [if_pos hk]; exact ih
    · rw [if_neg hk]
      refine List.Nodup.append ih (List.nodup_singleton _) ?_
      intro x hx hx2
      rw [List.mem_singleton] at hx2
      subst hx2
      exact hk ((has_key_map g x).mpr hx)
  | @add_edge g g1 src dst _ he ih =>
    unfold keys_distinct at *
    rw [dg_add_edge_keys g g1 src dst he]
    exact ih

/-- C12 at the graph with the nodes 0 and 1 and the edge `0 -> 1`, built
by two calls of `dg_add_node`, one of them repeated, and one `dg_add_edge`. -/
theorem built_keys_distinct_witness :
    keys_distinct (dg_add_node edge_graph 0 9 .OWNER_REMOTE).1 :=
  built_keys_distinct _
    (built.add_node 0 9 .OWNER_REMOTE
      (@built.add_edge _ edge_graph 0 1
        (built.add_node 1 0 .OWNER_LOCAL (built.add_node 0 0 .OWNER_LOCAL (built.new 8))) rfl))

theorem has_key_add_node (g : dgraph_t) (key : gkey_t) (value : Nat) (owner : owner_t)
    (k : gkey_t) (h : has_key g k) : has_key (dg_add_node g key value owner).1 k := by
  rw [has_key_map] at *
  rw [dg_add_node_keys]
  split
  · exact h
  · exact List.mem_append_left _ h

/-- C19. In every graph obtained from `dg_new` by calls of `dg_add_node` and
successful calls of `dg_add_edge`, every key of an out list is the key of a
node; so for each out-list entry that the inner loop of `dg_bfs` looks up,
`key_to_idx` is not negative and the skipping branch is not taken. -/
theorem built_targets_exist (g : dgraph_t) (h : built g) :
    (∀ nd ∈ g.nodes, ∀ k ∈ nd.out.data, has_key g k) ∧
    (∀ (u : Nat) (nd : dnode_t), g.nodes[u]? = some nd → ∀ k ∈ nd.out.data,
      ¬ key_to_idx g k < 0) := by
  have main : ∀ nd ∈ g.nodes, ∀ k ∈ nd.out.data, has_key g k := by
    induction h with
    | new cap_hint =>
      intro nd hnd
      simp [dg_new] at hnd
    | @add_node g key value owner _ ih =>
      intro nd hnd k hk
      by_cases hkey : has_key g key
      · obtain ⟨ix, old, hfi, hold, _, _⟩ := find_index_some g key hkey
        have hadd : (dg_add_node g key value owner).1.nodes =
            g.nodes.set ix ⟨old.key, value, owner, old.out⟩ := by
          unfold dg_add_node
          simp [hfi, hold]
        rw [hadd] at hnd
        obtain ⟨hl, he⟩ := List.getElem?_eq_some.mp hold
        rcases List.mem_or_eq_of_mem_set hnd with h1 | h1
        · exact has_key_add_node g key value owner k (ih nd h1 k hk)
        · subst h1
          exact has_key_add_node g key value owner k
            (ih old (he ▸ List.getElem_mem hl) k hk)
      · rw [(dg_add_node_absent g key value owner hkey).2] at hnd
        rcases List.mem_append.mp hnd with h1 | h1
        · exact has_key_add_node g key value owner k (ih nd h1 k hk)
        · rw [List.mem_singleton] at h1
          subst h1
          simp at hk
    | @add_edge g g1 src dst _ he ih =>
      intro nd hnd k hk
      have hkeys := dg_add_edge_keys g g1 src dst he
      obtain ⟨ix, old, _, hold, _, hdst, hn, _⟩ := dg_add_edge_ok g g1 src dst he
      have hmono : ∀ k2, has_key g k2 → has_key g1 k2 := by
        intro k2 h2
        rw [has_key_map] at *
        rw [hkeys]; exact h2
      rw [hn] at hnd
      obtain ⟨hl, he2⟩ := List.getElem?_eq_some.mp hold
      rcases List.mem_or_eq_of_mem_set hnd with h1 | h1
      · exact hmono k (ih nd h1 k hk)
      · subst h1
        simp only [keyvec_push, List.mem_append, List.mem_singleton] at hk
        rcases hk with h2 | h2
        · exact hmono k (ih old (he2 ▸ List.getElem_mem hl) k h2)
        · subst h2; exact hmono k hdst
  refine ⟨main, ?_⟩
  intro u nd hnd k hk
  obtain ⟨hl, he⟩ := List.getElem?_eq_some.mp hnd
  exact not_lt.mpr ((has_key_iff g k).mp (main nd (he ▸ List.getElem_mem hl) k hk))

/-- C19 at the graph with the nodes 0 and 1 and the edge `0 -> 1`. -/
theorem built_targets_exist_witness :
    (∀ nd ∈ edge_graph.nodes, ∀ k ∈ nd.out.data, has_key edge_graph k) ∧
    (∀ (u : Nat) (nd : dnode_t), edge_graph.nodes[u]? = some nd → ∀ k ∈ nd.out.data,
      ¬ key_to_idx edge_graph k < 0) :=
  built_targets_exist edge_graph
    (@built.add_edge _ edge_graph 0 1
      (built.add_node 1 0 .OWNER_LOCAL (built.add_node 0 0 .OWNER_LOCAL (built.new 8))) rfl)

/-! ## The claims on `dg_add_edge` and the accessors -/

/-- C13. For present keys `src` and `dst`, `dg_add_edge` succeeds and the
sequence that `dg_children` reports for `src` is the earlier one with `dst`
added at the end; the node of `src` keeps its key, value and owner, every
other node is unchanged, and so are the children of every other key and
the value and owner of every key. -/
theorem dg_add_edge_appends (g : dgraph_t) (src dst : gkey_t) (hs : has_key g src)
    (hd : has_key g dst) :
    ∃ (g1 : dgraph_t) (ix : Nat) (old : dnode_t), dg_add_edge g src dst = .ok g1 ∧
      dg_find_index g src = (ix : Int) ∧ g.nodes[ix]? = some old ∧
      dg_children g src = (1, some old.out.data) ∧
      dg_children g1 src = (1, some (old.out.data ++ [dst])) ∧
      g1.nodes.length = g.nodes.length ∧
      (∀ i, i ≠ ix → g1.nodes[i]? = g.nodes[i]?) ∧
      (∃ nd1, g1.nodes[ix]? = some nd1 ∧ nd1.key = old.key ∧ nd1.value = old.value ∧
        nd1.owner = old.owner) ∧
      (∀ k, k ≠ src → dg_children g1 k = dg_children g k) ∧
      (∀ k, dg_value g1 k = dg_value g k ∧ dg_owner g1 k = dg_owner g k) := by
  obtain ⟨ix, old, hfi, hold, hkey, hlt⟩ := find_index_some g src hs
  have hd0 : 0 ≤ dg_find_index g dst := (has_key_iff g dst).mp hd
  have hrun : dg_add_edge g src dst = .ok
      ({ nodes := g.nodes.set ix ⟨old.key, old.value, old.owner, keyvec_push old.out dst⟩,
         cap := g.cap } : dgraph_t) := by
    unfold dg_add_edge
    simp [hfi, hd0, hold]
  have hfind : ∀ k, dg_find_index
      ({ nodes := g.nodes.set ix ⟨old.key, old.value, old.owner, keyvec_push old.out dst⟩,
         cap := g.cap } : dgraph_t) k = dg_find_index g k := by
    intro k
    unfold dg_find_index
    exact scan_from_set g.nodes ix old
      ⟨old.key, old.value, old.owner, keyvec_push old.out dst⟩ hold rfl 0 k
  have hget : (g.nodes.set ix
      (⟨old.key, old.value, old.owner, keyvec_push old.out dst⟩ : dnode_t))[ix]? =
      some ⟨old.key, old.value, old.owner, keyvec_push old.out dst⟩ := by
    rw [List.getElem?_set]; simp [hlt]
  have hother : ∀ i, i ≠ ix → (g.nodes.set ix
      (⟨old.key, old.value, old.owner, keyvec_push old.out dst⟩ : dnode_t))[i]? =
      g.nodes[i]? := by
    intro i hi
    rw [List.getElem?_set, if_neg (fun e => hi e.symm)]
  refine ⟨_, ix, old, hrun, hfi, hold, dg_children_at g src ix old hfi hold, ?_, ?_, hother,
    ⟨_, hget, rfl, rfl, rfl⟩, ?_, ?_⟩
  · exact dg_children_at _ src ix _ (by rw [hfind]; exact hfi) hget
  · simp
  · intro k hk
    by_cases hp : has_key g k
    · obtain ⟨j, nd, hfj, hnj, hkj, _⟩ := find_index_some g k hp
      have hji : j ≠ ix := by
        intro e; subst e
        rw [hold] at hnj; cases hnj
        exact hk (hkj.symm.trans hkey)
      rw [dg_children_at g k j nd hfj hnj,
        dg_children_at _ k j nd (by rw [hfind]; exact hfj) (by rw [← hnj]; exact hother j hji)]
    · have ha := find_index_absent g k hp
      unfold dg_children
      simp [hfind, ha]
  · intro k
    by_cases hp : has_key g k
    · obtain ⟨j, nd, hfj, hnj, _, _⟩ := find_index_some g k hp
      by_cases hji : j = ix
      · subst hji
        rw [hold] at hnj; cases hnj
        rw [dg_value_at g k j old hfj hold, dg_owner_at g k j old hfj hold,
          dg_value_at _ k j _ (by rw [hfind]; exact hfj) hget,
          dg_owner_at _ k j _ (by rw [hfind]; exact hfj) hget]
        exact ⟨rfl, rfl⟩
      · have hg1 := hother j hji
        rw [hnj] at hg1
        rw [dg_value_at g k j nd hfj hnj, dg_owner_at g k j nd hfj hnj,
          dg_value_at _ k j nd (by rw [hfind]; exact hfj) hg1,
          dg_owner_at _ k j nd (by rw [hfind]; exact hfj) hg1]
        exact ⟨rfl, rfl⟩
    · have ha := find_index_absent g k hp
      unfold dg_value dg_owner
      simp [hfind, ha]

/-- C13 at the graph with the nodes 0 and 1 and the edge `0 -> 1`: the
edge `0 -> 1` is added a second time. -/
theorem dg_add_edge_appends_witness :
    ∃ (g1 : dgraph_t) (ix : Nat) (old : dnode_t), dg_add_edge edge_graph 0 1 = .ok g1 ∧
      dg_find_index edge_graph 0 = (ix : Int) ∧ edge_graph.nodes[ix]? = some old ∧
      dg_children edge_graph 0 = (1, some old.out.data) ∧
      dg_children g1 0 = (1, some (old.out.data ++ [1])) ∧
      g1.nodes.length = edge_graph.nodes.length ∧
      (∀ i, i ≠ ix → g1.nodes[i]? = edge_graph.nodes[i]?) ∧
      (∃ nd1, g1.nodes[ix]? = some nd1 ∧ nd1.key = old.key ∧ nd1.value = old.value ∧
        nd1.owner = old.owner) ∧
      (∀ k, k ≠ 0 → dg_children g1 k = dg_children edge_graph k) ∧
      (∀ k, dg_value g1 k = dg_value edge_graph k ∧ dg_owner g1 k = dg_owner edge_graph k) :=
  dg_add_edge_appends edge_graph 0 1 (by decide) (by decide)

theorem dg_add_edge_of_mem (g : dgraph_t) (src dst : gkey_t) :
    dg_add_edge g src dst =
      match dg_add_edge_mem g src dst with
      | (g1, none) => .ok g1
      | (_, some e) => .error e := by
  unfold dg_add_edge dg_add_edge_mem
  by_cases hc : 0 ≤ dg_find_index g src ∧ 0 ≤ dg_find_index g dst
  · simp only [hc, and_self, if_true]
    cases g.nodes[(dg_find_index g src).toNat]? <;> rfl
  · simp only [hc, if_false]

/-- C14. The call `dg_add_edge g src dst` ends in the failed assertion
exactly when `src` or `dst` is not a key of the graph; it ends in no other
fault, and when it fails the graph in memory is the graph it was given. -/
theorem dg_add_edge_fails_iff (g : dgraph_t) (src dst : gkey_t) :
    (dg_add_edge g src dst = .error .assert_fail ↔ ¬ has_key g src ∨ ¬ has_key g dst) ∧
    (∀ e, dg_add_edge g src dst = .error e → e = .assert_fail) ∧
    (dg_add_edge g src dst =
      match dg_add_edge_mem g src dst with
      | (g1, none) => .ok g1
      | (_, some e) => .error e) ∧
    (∀ e, (dg_add_edge_mem g src dst).2 = some e → (dg_add_edge_mem g src dst).1 = g) := by
  refine ⟨?_, ?_, dg_add_edge_of_mem g src dst, ?_⟩
  · constructor
    · intro h
      by_contra hn
      have hs : has_key g src := by by_contra h1; exact hn (Or.inl h1)
      have hd : has_key g dst := by by_contra h1; exact hn (Or.inr h1)
      obtain ⟨g1, _, _, hok, _⟩ := dg_add_edge_appends g src dst hs hd
      rw [hok] at h
      cases h
    · intro h
      have hc : ¬ (0 ≤ dg_find_index g src ∧ 0 ≤ dg_find_index g dst) := by
        rintro ⟨h1, h2⟩
        rcases h with h | h
        · exact h ((has_key_iff g src).mpr h1)
        · exact h ((has_key_iff g dst).mpr h2)
      unfold dg_add_edge
      simp only [hc, if_false]
  · intro e he
    by_cases hc : 0 ≤ dg_find_index g src ∧ 0 ≤ dg_find_index g dst
    · obtain ⟨g1, _, _, hok, _⟩ := dg_add_edge_appends g src dst
        ((has_key_iff g src).mpr hc.1) ((has_key_iff g dst).mpr hc.2)
      rw [hok] at he
      cases he
    · unfold dg_add_edge at he
      simp only [hc, if_false] at he
      cases he
      rfl
  · intro e he
    unfold dg_add_edge_mem at *
    by_cases hc : 0 ≤ dg_find_index g src ∧ 0 ≤ dg_find_index g dst
    · simp only [hc, and_self, if_true] at he ⊢
      cases hq : g.nodes[(dg_find_index g src).toNat]? with
      | none => rfl
      | some nd => rw [hq] at he; cases he
    · simp only [hc, if_false]

/-- C15. For a key that is not in the graph `dg_children` returns 0 and
writes nothing, while `dg_owner` and `dg_value` end in the failed
assertion; for a key of the graph `dg_children` returns 1 with the out list
of its node, and `dg_owner` and `dg_value` return its owner and value. -/
theorem dg_accessors (g : dgraph_t) (k : gkey_t) :
    (¬ has_key g k → dg_children g k = (0, none) ∧ dg_owner g k = .error .assert_fail ∧
      dg_value g k = .error .assert_fail) ∧
    (has_key g k → ∃ nd ∈ g.nodes, nd.key = k ∧ dg_children g k = (1, some nd.out.data) ∧
      dg_owner g k = .ok nd.owner ∧ dg_value g k = .ok nd.value) := by
  constructor
  · intro h
    have ha := find_index_absent g k h
    unfold dg_children dg_owner dg_value
    simp [ha]
  · intro h
    obtain ⟨ix, nd, hfi, hnd, hkey, hlt⟩ := find_index_some g k h
    obtain ⟨hl, he⟩ := List.getElem?_eq_some.mp hnd
    exact ⟨nd, he ▸ List.getElem_mem hl, hkey, dg_children_at g k ix nd hfi hnd,
      dg_owner_at g k ix nd hfi hnd, dg_value_at g k ix nd hfi hnd⟩

/-! ## The reference example -/

theorem bfs_loop_mono (g : dgraph_t) (fuel : Nat) :
    ∀ (st a : bfs_state), bfs_loop g fuel st = .ok a → bfs_loop g (fuel + 1) st = .ok a := by
  induction fuel with
  | zero =>
    intro st a h
    by_cases hh : st.head = st.tail
    · rw [bfs_loop_done g 0 st hh] at h
      rw [bfs_loop_done g 1 st hh]; exact h
    · unfold bfs_loop at h
      simp [hh] at h
  | succ f ih =>
    intro st a h
    by_cases hh : st.head = st.tail
    · rw [bfs_loop_done g _ st hh] at h
      rw [bfs_loop_done g _ st hh]; exact h
    · conv at h => lhs; unfold bfs_loop
      simp only [hh, if_false] at h
      split at h
      · cases h
      · cases h
      · rename_i u hq
        split at h
        · cases h
        · rename_i nd hnd
          split at h
          · cases h
          · rename_i st1 hs
            rw [bfs_loop_step g (f + 1) st hh u hq nd hnd st1 hs]
            exact ih st1 a h

theorem dg_bfs_mono (g : dgraph_t) (src_key : gkey_t) (R : bfs_result_t) (fuel k : Nat)
    (h : dg_bfs fuel g src_key = .ok R) : dg_bfs (fuel + k) g src_key = .ok R := by
  induction k with
  | zero => exact h
  | succ k ih =>
    unfold dg_bfs at *
    by_cases hs : key_to_idx g src_key < 0
    · simp [hs] at ih
    · simp only [hs, if_false] at ih ⊢
      split at ih
      · cases ih
      · rename_i st hl
        rw [show fuel + (k + 1) = (fuel + k) + 1 from rfl, bfs_loop_mono g _ _ st hl]
        exact ih

/-- C16. On the graph of `demo.c` (nodes 0..5 added in order, then the
edges 0->1, 0->2, 1->3, 2->3, 3->4, 4->5) `dg_bfs` from key 0 returns, with
any fuel of at least 6, a result with `dist = 4` for node 5, and
`dg_build_path` from 0 to 5 on it returns the five keys 0, 1, 3, 4, 5. -/
theorem demo_bfs_path :
    demo_graph = .ok demo_g ∧ key_to_idx demo_g 5 = 5 ∧
      ∃ R, (∀ fuel, 6 ≤ fuel → dg_bfs fuel demo_g 0 = .ok R) ∧ R.dist[5]? = some 4 ∧
        dg_build_path demo_g 0 5 (some R) = .ok (some [0, 1, 3, 4, 5]) ∧
        ([0, 1, 3, 4, 5] : List gkey_t).length = 5 := by
  have hrun : dg_bfs 6 demo_g 0 =
      .ok { dist := [0, 1, 1, 2, 3, 4], parent := [0, 0, 0, 1, 3, 4] } := by decide!
  refine ⟨by decide!, by decide!, { dist := [0, 1, 1, 2, 3, 4], parent := [0, 0, 0, 1, 3, 4] },
    ?_, rfl, by decide!, rfl⟩
  intro fuel hf
  obtain ⟨k, hk⟩ : ∃ k, fuel = 6 + k := ⟨fuel - 6, by omega⟩
  rw [hk]
  exact dg_bfs_mono _ 0 _ 6 k hrun

/-! ## The run with its queue accesses -/

theorem bfs_visit_erase (g : dgraph_t) (u : Nat) (st : bfs_state) (k : gkey_t) :
    bfs_visit g u st k =
      match bfs_visit_ev g u st k with
      | .ok (st1, _) => .ok st1
      | .error e => .error e := by
  unfold bfs_visit bfs_visit_ev
  simp only
  split
  · rfl
  · split
    · rfl
    · split
      · split
        · rfl
        · split <;> rfl
      · rfl

theorem bfs_scan_erase (g : dgraph_t) (u : Nat) (ks : List gkey_t) :
    ∀ st, bfs_scan g u ks st =
      match bfs_scan_ev g u ks st with
      | .ok (st1, _) => .ok st1
      | .error e => .error e := by
  induction ks with
  | nil => intro st; rfl
  | cons k ks ih =>
    intro st
    simp only [bfs_scan, bfs_scan_ev]
    rw [bfs_visit_erase]
    cases hv : bfs_visit_ev g u st k with
    | error e => rfl
    | ok r =>
      obtain ⟨st1, l1⟩ := r
      simp only
      rw [ih st1]
      cases hs : bfs_scan_ev g u ks st1 with
      | error e => rfl
      | ok r2 => rfl

/-- The loop of `dg_bfs` with fuel `k` is the run of at most `k` passes:
it returns the state reached if the queue is empty there and is out of fuel
otherwise. -/
theorem bfs_loop_erase (g : dgraph_t) (k : Nat) :
    ∀ st, bfs_loop g k st =
      match bfs_iter g k st with
      | .ok (st1, _) => if st1.head = st1.tail then .ok st1 else .error .out_of_fuel
      | .error e => .error e := by
  induction k with
  | zero =>
    intro st
    unfold bfs_loop
    simp only [bfs_iter]
  | succ k ih =>
    intro st
    by_cases hh : st.head = st.tail
    · rw [bfs_loop_done g _ st hh]
      simp only [bfs_iter, hh, if_true]
    · conv => lhs; unfold bfs_loop
      simp only [bfs_iter, hh, if_false]
      split
      · rfl
      · rfl
      · split
        · rfl
        · rw [bfs_scan_erase]
          cases hs : bfs_scan_ev g _ _ _ with
          | error e => rfl
          | ok r =>
            obtain ⟨st1, l1⟩ := r
            simp only
            rw [ih st1]
            cases hi : bfs_iter g k st1 with
            | error e => rfl
            | ok r2 => rfl

theorem dg_bfs_erase (g : dgraph_t) (k : Nat) (src_key : gkey_t) :
    dg_bfs k g src_key =
      match bfs_trace k g src_key with
      | .ok (st, _) => if st.head = st.tail then .ok st.R else .error .out_of_fuel
      | .error e => .error e := by
  unfold dg_bfs bfs_trace
  simp only
  split
  · rfl
  · rw [bfs_loop_erase]
    cases hi : bfs_iter g k _ with
    | error e => rfl
    | ok r =>
      obtain ⟨st1, l1⟩ := r
      simp only
      by_cases hh : st1.head = st1.tail
      · simp only [hh, if_true]
      · simp only [hh, if_false]

/-- More passes only add accesses at the end of the log. -/
theorem bfs_iter_grows (g : dgraph_t) (k m : Nat) :
    ∀ (st st1 st2 : bfs_state) (l1 l2 : List bfs_event), bfs_iter g k st = .ok (st1, l1) →
      bfs_iter g (k + m) st = .ok (st2, l2) → l1 <+: l2 := by
  induction k with
  | zero =>
    intro st st1 st2 l1 l2 h1 _
    simp only [bfs_iter] at h1
    cases h1
    exact List.nil_prefix
  | succ k ih =>
    intro st st1 st2 l1 l2 h1 h2
    rw [show k + 1 + m = (k + m) + 1 by omega] at h2
    by_cases hh : st.head = st.tail
    · simp only [bfs_iter, hh, if_true] at h1 h2
      cases h1; cases h2
      exact List.prefix_refl _
    · simp only [bfs_iter, hh, if_false] at h1 h2
      split at h1
      · cases h1
      · cases h1
      · rename_i u hq
        simp only [hq] at h2
        split at h1
        · cases h1
        · rename_i nd hnd
          simp only [hnd] at h2
          split at h1
          · cases h1
          · rename_i sa la hs
            simp only [hs] at h2
            split at h1
            · cases h1
            · rename_i sb lb hi1
              split at h2
              · cases h2
              · rename_i sc lc hi2
                have e1 := (Prod.mk.inj (Except.ok.inj h1)).2
                have e2 := (Prod.mk.inj (Except.ok.inj h2)).2
                have := ih sa sb sc lb lc hi1 hi2
                rw [← e1, ← e2]
                exact List.prefix_cons_inj _ |>.mpr ((List.prefix_append_right_inj la).mpr this)

theorem bfs_trace_grows (g : dgraph_t) (src_key : gkey_t) (k m : Nat)
    (st1 st2 : bfs_state) (l1 l2 : List bfs_event)
    (h1 : bfs_trace k g src_key = .ok (st1, l1))
    (h2 : bfs_trace (k + m) g src_key = .ok (st2, l2)) : l1 <+: l2 := by
  unfold bfs_trace at h1 h2
  simp only at h1 h2
  split at h1
  · cases h1
  · rename_i hs
    simp only [hs, if_false] at h2
    split at h1
    · cases h1
    · rename_i sa la hi1
      split at h2
      · cases h2
      · rename_i sb lb hi2
        have e1 := (Prod.mk.inj (Except.ok.inj h1)).2
        have e2 := (Prod.mk.inj (Except.ok.inj h2)).2
        rw [← e1, ← e2]
        exact List.prefix_cons_inj _ |>.mpr (bfs_iter_grows g k m _ sa sb la lb hi1 hi2)

theorem deq_log_append (l1 l2 : List bfs_event) :
    deq_log (l1 ++ l2) = deq_log l1 ++ deq_log l2 := by
  induction l1 with
  | nil => rfl
  | cons e l ih => cases e <;> simp [deq_log, ih]

theorem enq_log_append (l1 l2 : List bfs_event) :
    enq_log (l1 ++ l2) = enq_log l1 ++ enq_log l2 := by
  induction l1 with
  | nil => rfl
  | cons e l ih => cases e <;> simp [enq_log, ih]

theorem visit_ev_absent (g : dgraph_t) (u : Nat) (st : bfs_state) (k : gkey_t)
    (h : key_to_idx g k < 0) : bfs_visit_ev g u st k = .ok (st, []) := by
  unfold bfs_visit_ev
  simp [h]

theorem visit_ev_seen (g : dgraph_t) (u : Nat) (st : bfs_state) (k : gkey_t) (vn : Nat)
    (hk : key_to_idx g k = (vn : Int)) (hlt : vn < st.R.dist.length) (hd : dv st vn ≠ -1) :
    bfs_visit_ev g u st k = .ok (st, []) := by
  unfold bfs_visit_ev
  have hget := getElem?_of_lt_getD st.R.dist vn hlt
  have hd2 : ¬ st.R.dist.getD vn (-1) = -1 := hd
  generalize st.R.dist.getD vn (-1) = x at hget hd2
  simp [hk, hget, hd2]

theorem visit_ev_fresh (g : dgraph_t) (u : Nat) (st : bfs_state) (k : gkey_t) (vn : Nat)
    (hk : key_to_idx g k = (vn : Int)) (hlt : vn < st.R.dist.length)
    (hlp : vn < st.R.parent.length) (hu : u < st.R.dist.length)
    (ht : st.tail < st.q.length) (hd : dv st vn = -1) :
    bfs_visit_ev g u st k =
      .ok (enq_state g st u vn, [.enq st.tail vn (dv st u + 1)]) := by
  unfold bfs_visit_ev
  have hget := getElem?_of_lt_getD st.R.dist vn hlt
  have hgetu := getElem?_of_lt_getD st.R.dist u hu
  have hd2 : st.R.dist.getD vn (-1) = -1 := hd
  rw [hd2] at hget
  have hdu : dv st u = st.R.dist.getD u (-1) := rfl
  simp only [enq_state, hdu]
  generalize st.R.dist.getD u (-1) = y at hgetu
  simp [hk, hget, hgetu, hlp, ht]

theorem frame_refl (st : bfs_state) (E : Nat) : frame st E st :=
  ⟨fun _ _ => rfl, fun _ _ => ⟨rfl, rfl⟩⟩

theorem frame_trans {st st1 st2 : bfs_state} {E E1 : Nat} (hE : E ≤ E1)
    (h1 : frame st E st1) (h2 : frame st1 E1 st2) : frame st E st2 := by
  refine ⟨fun i hi => ?_, fun w hw => ?_⟩
  · rw [h2.1 i (by omega), h1.1 i hi]
  · obtain ⟨a, b⟩ := h1.2 w hw
    obtain ⟨c, d⟩ := h2.2 w (by rw [a]; exact hw)
    exact ⟨by rw [c, a], by rw [d, b]⟩

theorem Inner.cur_visited {g : dgraph_t} {s u D : Nat} {st : bfs_state} {E : Nat}
    (h : Inner g s u D st E) : dv st u ≠ -1 := by
  obtain ⟨a, ha, hda⟩ := h.inv.qhist (D - 1) (by have := h.D_pos; have := h.D_le; omega)
  rw [h.cur] at ha; cases ha; exact hda

/-- One pass of the inner loop with its log: the invariant is kept, the
parents stay among the dequeued nodes, and the log holds the one write made,
if any. -/
theorem visit_ev_step {g : dgraph_t} {s u D : Nat} {st : bfs_state} {E : Nat}
    (h : Inner g s u D st E) (hp : par_settled s st D) {nd : dnode_t}
    (hnd : g.nodes[u]? = some nd) {k : gkey_t} (hk : k ∈ nd.out.data) :
    ∃ st1 l E1, bfs_visit_ev g u st k = .ok (st1, l) ∧ Inner g s u D st1 E1 ∧
      par_settled s st1 D ∧ E ≤ E1 ∧ frame st E st1 ∧ deq_log l = [] ∧
      enq_log l = (List.range' E (E1 - E)).map (enq_entry st1) ∧
      (∀ w : Nat, key_to_idx g k = (w : Int) → dv st1 w ≠ -1 ∧ dv st1 w ≤ dv st1 u + 1) := by
  have hI := h.inv
  have hu := h.cur_visited
  by_cases hneg : key_to_idx g k < 0
  · refine ⟨st, [], E, visit_ev_absent g u st k hneg, h, hp, le_refl _, frame_refl st E, rfl,
      by simp [enq_log], ?_⟩
    intro w hw
    rw [hw] at hneg
    exact absurd (Int.natCast_nonneg w) (not_le.mpr hneg)
  · obtain ⟨vn, nv, hkv, _, _, hvn⟩ := key_to_idx_some g k (not_lt.mp hneg)
    have hvd : vn < st.R.dist.length := by rw [hI.len_d]; exact hvn
    have hvp : vn < st.R.parent.length := by rw [hI.len_p]; exact hvn
    by_cases hd : dv st vn = -1
    · have hc : cedge g u vn := ⟨nd, k, hnd, hk, hkv⟩
      obtain ⟨htq, hin⟩ := enq_inner h hc hd hvn
      have hul : u < st.R.dist.length := getD_ne_lt _ _ hu
      have hE : E < g.nodes.length := by have := hin.inv.E_le; omega
      have htail : st.tail = E := by rw [hI.tail_eq, if_neg (Nat.ne_of_lt hE)]
      have hne : ∀ w, dv st w ≠ -1 → w ≠ vn := by
        intro w hw e; subst e; exact hw hd
      have hqE : qv (enq_state g st u vn) E = some vn := by
        rw [qv_enq g st u vn E htq, htail, if_pos rfl]
      have hdE : dv (enq_state g st u vn) vn = dv st u + 1 := by
        rw [dv_enq g st u vn vn hvd, if_pos rfl]
      have hfr : frame st E (enq_state g st u vn) := by
        refine ⟨fun i hi => ?_, fun w hw => ⟨?_, ?_⟩⟩
        · rw [qv_enq g st u vn i htq, htail, if_neg (Nat.ne_of_lt hi)]
        · rw [dv_enq g st u vn w hvd, if_neg (hne w hw)]
        · rw [pv_enq g st u vn w hvp, if_neg (hne w hw)]
      refine ⟨enq_state g st u vn, [.enq st.tail vn (dv st u + 1)], E + 1,
        visit_ev_fresh g u st k vn hkv hvd hvp hul htq hd, hin, ?_, Nat.le_succ _, hfr, rfl,
        ?_, ?_⟩
      · intro v hv hvs
        by_cases hvv : v = vn
        · subst hvv
          refine ⟨u, D - 1, by rw [pv_enq g st u v v hvp, if_pos rfl], ?_, ?_⟩
          · have := h.D_pos; omega
          · rw [hfr.1 (D - 1) (by have := h.D_pos; have := h.D_le; omega)]; exact h.cur
        · rw [dv_enq g st u vn v hvd, if_neg hvv] at hv
          obtain ⟨p, i, h1, h2, h3⟩ := hp v hv hvs
          exact ⟨p, i, by rw [(hfr.2 v hv).2]; exact h1, h2,
            by rw [hfr.1 i (by have := h.D_le; omega)]; exact h3⟩
      · simp only [enq_log, Nat.add_sub_cancel_left, List.range'_one, List.map_cons,
          List.map_nil, enq_entry, qn, hqE, Option.getD_some, hdE, htail]
      · intro w hw
        have : w = vn := by rw [hkv] at hw; exact_mod_cast hw.symm
        subst this
        rw [hdE, (hfr.2 u hu).1]
        obtain ⟨du, hdu, _, _⟩ := hI.sound u hu
        exact ⟨by rw [hdu]; omega, le_refl _⟩
    · refine ⟨st, [], E, visit_ev_seen g u st k vn hkv hvd hd, h, hp, le_refl _,
        frame_refl st E, rfl, by simp [enq_log], ?_⟩
      intro w hw
      have : w = vn := by rw [hkv] at hw; exact_mod_cast hw.symm
      subst this
      obtain ⟨j, hj, hq⟩ := hI.v2q w hd
      exact ⟨hd, h.bound j w hj hq⟩

theorem range_split (a b c : Nat) (h1 : a ≤ b) (h2 : b ≤ c) :
    List.range' a (b - a) ++ List.range' b (c - b) = List.range' a (c - a) := by
  have := List.range'_append_1 a (b - a) (c - b)
  rw [show a + (b - a) = b by omega, show c - b + (b - a) = c - a by omega] at this
  exact this

theorem enq_entry_frame {g : dgraph_t} {s : Nat} {st st1 : bfs_state} {E : Nat}
    (hI : Inv g s st E) (hf : frame st E st1) (i : Nat) (hi : i < E) :
    enq_entry st1 i = enq_entry st i ∧ deq_entry st1 i = deq_entry st i := by
  obtain ⟨a, ha, hda⟩ := hI.qhist i hi
  have hq : qn st1 i = qn st i := by simp only [qn, hf.1 i hi]
  have hqa : qn st i = a := by simp only [qn, ha, Option.getD_some]
  simp only [enq_entry, deq_entry, hq, hqa, (hf.2 a hda).1, and_self]

theorem enq_entries_frame {g : dgraph_t} {s : Nat} {st st1 : bfs_state} {E : Nat}
    (hI : Inv g s st E) (hf : frame st E st1) (a n : Nat) (h : a + n ≤ E) :
    (List.range' a n).map (enq_entry st1) = (List.range' a n).map (enq_entry st) ∧
    (List.range' a n).map (deq_entry st1) = (List.range' a n).map (deq_entry st) := by
  constructor
  · refine List.map_congr_left (fun i hi => ?_)
    rw [List.mem_range'_1] at hi
    exact (enq_entry_frame hI hf i (by omega)).1
  · refine List.map_congr_left (fun i hi => ?_)
    rw [List.mem_range'_1] at hi
    exact (enq_entry_frame hI hf i (by omega)).2

/-- The inner loop with its log. -/
theorem scan_ev_steps {g : dgraph_t} {s u D : Nat} {nd : dnode_t}
    (hnd : g.nodes[u]? = some nd) (ks : List gkey_t) :
    ∀ {st : bfs_state} {E : Nat}, Inner g s u D st E → par_settled s st D →
      (∀ k ∈ ks, k ∈ nd.out.data) →
      ∃ st1 l E1, bfs_scan_ev g u ks st = .ok (st1, l) ∧ Inner g s u D st1 E1 ∧
        par_settled s st1 D ∧ E ≤ E1 ∧ frame st E st1 ∧ deq_log l = [] ∧
        enq_log l = (List.range' E (E1 - E)).map (enq_entry st1) ∧
        (∀ k ∈ ks, ∀ w : Nat, key_to_idx g k = (w : Int) →
          dv st1 w ≠ -1 ∧ dv st1 w ≤ dv st1 u + 1) := by
  induction ks with
  | nil =>
    intro st E h hp _
    exact ⟨st, [], E, rfl, h, hp, le_refl _, frame_refl st E, rfl, by simp [enq_log],
      by simp⟩
  | cons k ks ih =>
    intro st E h hp hsub
    obtain ⟨st1, l1, E1, hv, hin1, hp1, hE1, hf1, hdq1, henq1, hcl1⟩ :=
      visit_ev_step h hp hnd (hsub k (List.mem_cons_self _ _))
    obtain ⟨st2, l2, E2, hs, hin2, hp2, hE2, hf2, hdq2, henq2, hcl2⟩ :=
      ih hin1 hp1 (fun k2 hk2 => hsub k2 (List.mem_cons_of_mem _ hk2))
    refine ⟨st2, l1 ++ l2, E2, ?_, hin2, hp2, le_trans hE1 hE2, frame_trans hE1 hf1 hf2, ?_,
      ?_, ?_⟩
    · simp only [bfs_scan_ev, hv, hs]
    · rw [deq_log_append, hdq1, hdq2]; rfl
    · rw [enq_log_append, henq1, henq2,
        ← (enq_entries_frame hin1.inv hf2 E (E1 - E) (by omega)).1, ← List.map_append,
        range_split E E1 E2 hE1 hE2]
    · intro k2 hk2 w hw
      rcases List.mem_cons.mp hk2 with e | e
      · subst e
        obtain ⟨h1, h2⟩ := hcl1 w hw
        rw [(hf2.2 w h1).1, (hf2.2 u hin1.cur_visited).1]
        exact ⟨h1, h2⟩
      · exact hcl2 k2 e w hw

theorem bfs_iter_step (g : dgraph_t) (k : Nat) (st : bfs_state) (h : st.head ≠ st.tail)
    (u : Nat) (hq : st.q[st.head]? = some (some u)) (nd : dnode_t)
    (hnd : g.nodes[u]? = some nd) (st1 : bfs_state) (l1 : List bfs_event)
    (hs : bfs_scan_ev g u nd.out.data
      { st with head := if st.head + 1 = g.nodes.length then 0 else st.head + 1 } =
        .ok (st1, l1))
    (st2 : bfs_state) (l2 : List bfs_event) (hi : bfs_iter g k st1 = .ok (st2, l2)) :
    bfs_iter g (k + 1) st = .ok (st2, .deq st.head u :: (l1 ++ l2)) := by
  simp only [bfs_iter, h, if_false, hq, hnd, hs, hi]

/-- Any number of passes of the queue loop from a state that satisfies the
invariant: the invariant holds after them, and the log holds the reads of
the queue cells `D .. D1` and the writes of the cells `E .. E1`. -/
theorem iter_runs {g : dgraph_t} {s : Nat} :
    ∀ (k D : Nat) (st : bfs_state) (E : Nat), Outer g s D st E → par_settled s st D →
      ∃ st1 l E1 D1, bfs_iter g k st = .ok (st1, l) ∧ Outer g s D1 st1 E1 ∧
        par_settled s st1 D1 ∧ D ≤ D1 ∧ E ≤ E1 ∧ frame st E st1 ∧
        deq_log l = (List.range' D (D1 - D)).map (deq_entry st1) ∧
        enq_log l = (List.range' E (E1 - E)).map (enq_entry st1) := by
  intro k
  induction k with
  | zero =>
    intro D st E h hp
    exact ⟨st, [], E, D, rfl, h, hp, le_refl _, le_refl _, frame_refl st E,
      by simp [deq_log], by simp [enq_log]⟩
  | succ k ih =>
    intro D st E h hp
    have hI := h.inv
    have hEn := hI.E_le
    have hDE := h.D_le
    by_cases hDeq : D = E
    · have hh : st.head = st.tail := by rw [h.head_eq, hI.tail_eq, hDeq]
      refine ⟨st, [], E, D, by simp only [bfs_iter, hh, if_true], h, hp, le_refl _, le_refl _,
        frame_refl st E, by simp [deq_log], by simp [enq_log]⟩
    · have hDlt : D < E := by omega
      have hDn : D ≠ g.nodes.length := by omega
      have hhead : st.head = D := by rw [h.head_eq, if_neg hDn]
      have hne : st.head ≠ st.tail := by
        rw [hhead, hI.tail_eq]
        by_cases hE : E = g.nodes.length
        · rw [if_pos hE]
          intro h0
          have := h.start h0
          omega
        · rw [if_neg hE]; exact hDeq
      obtain ⟨u, hqu, hdu⟩ := hI.qhist D hDlt
      have hun : u < g.nodes.length := hI.lt_of_visited hdu
      obtain ⟨nd, hnd⟩ : ∃ nd, g.nodes[u]? = some nd :=
        ⟨g.nodes[u], List.getElem?_eq_getElem hun⟩
      have hq : st.q[st.head]? = some (some u) := by
        rw [hhead]; exact (getD_eq_some_iff st.q D u).mp hqu
      have hin : Inner g s u (D + 1)
          { st with head := if st.head + 1 = g.nodes.length then 0 else st.head + 1 } E :=
        { inv := { hI with }
          D_pos := by omega
          D_le := by omega
          cur := hqu
          closed := h.closed
          bound := h.bound u hDlt hqu
          head_eq := by simp only [hhead] }
      have hp0 : par_settled s
          { st with head := if st.head + 1 = g.nodes.length then 0 else st.head + 1 }
          (D + 1) := by
        intro v hv hvs
        obtain ⟨p, i, h1, h2, h3⟩ := hp v hv hvs
        exact ⟨p, i, h1, by omega, h3⟩
      obtain ⟨st1, l1, E1, hs, hin1, hp1, hE1, hf1, hdq1, henq1, hcl⟩ :=
        scan_ev_steps hnd nd.out.data hin hp0 (fun _ hk => hk)
      have hf1s : frame st E st1 := hf1
      have hI1 := hin1.inv
      have hcur : qv st1 D = some u := hin1.cur
      have hout : Outer g s (D + 1) st1 E1 :=
        { inv := hI1
          D_le := hin1.D_le
          closed := by
            intro i a hi hqa w hc
            by_cases hiD : i = D
            · subst hiD
              rw [hcur] at hqa; cases hqa
              obtain ⟨nd2, k2, hnd2, hk, hkw⟩ := hc
              rw [hnd] at hnd2; cases hnd2
              exact hcl k2 hk w hkw
            · exact hin1.closed i a (by omega) hqa w hc
          head_eq := hin1.head_eq
          bound := by
            intro c hlt hqc j b hj hqb
            have h1 := hin1.bound j b hj hqb
            have h2 := hI1.mono D (D + 1) u c (by omega) hlt hcur hqc
            omega
          start := by intro h0; omega }
      obtain ⟨st2, l2, E2, D2, hi, hout2, hp2, hD2, hE2, hf2, hdq2, henq2⟩ :=
        ih (D + 1) st1 E1 hout hp1
      have hD1E1 : D + 1 ≤ E1 := hin1.D_le
      refine ⟨st2, .deq st.head u :: (l1 ++ l2), E2, D2,
        bfs_iter_step g k st hne u hq nd hnd st1 l1 hs st2 l2 hi, hout2, hp2, by omega,
        le_trans hE1 hE2, frame_trans hE1 hf1s hf2, ?_, ?_⟩
      · have hq2 : qv st2 D = some u := by rw [hf2.1 D (by omega)]; exact hcur
        simp only [deq_log, deq_log_append, hdq1, hdq2, List.nil_append, hhead]
        rw [show D2 - D = (D2 - (D + 1)) + 1 by omega, List.range'_succ, List.map_cons]
        simp only [deq_entry, qn, hq2, Option.getD_some]
      · simp only [enq_log, enq_log_append, henq1, henq2]
        rw [← (enq_entries_frame hI1 hf2 E (E1 - E) (by omega)).1, ← List.map_append,
          range_split E E1 E2 hE1 hE2]

theorem scan_ev_single (g : dgraph_t) (hn : g.nodes.length = 1) (ks : List gkey_t) :
    bfs_scan_ev g 0 ks (bfs_init g 0) = .ok (bfs_init g 0, []) := by
  induction ks with
  | nil => rfl
  | cons k ks ih =>
    have hv : bfs_visit_ev g 0 (bfs_init g 0) k = .ok (bfs_init g 0, []) := by
      by_cases hneg : key_to_idx g k < 0
      · exact visit_ev_absent g 0 _ k hneg
      · obtain ⟨vn, _, hkv, _, _, hvn⟩ := key_to_idx_some g k (not_lt.mp hneg)
        have : vn = 0 := by omega
        subst this
        refine visit_ev_seen g 0 _ k 0 hkv (by simp [bfs_init, hn]) ?_
        rw [dv_init g 0 0 (by omega), if_pos rfl]
        decide
    simp only [bfs_scan_ev, hv, ih, List.nil_append]

/-- On a graph with exactly one node every pass of the queue loop reads
`q[0]` and leaves the state as it was. -/
theorem iter_single (g : dgraph_t) (hn : g.nodes.length = 1) (k : Nat) :
    bfs_iter g k (bfs_init g 0) = .ok (bfs_init g 0, List.replicate k (.deq 0 0)) := by
  induction k with
  | zero => rfl
  | succ k ih =>
    obtain ⟨nd, hnd⟩ : ∃ nd, g.nodes[0]? = some nd :=
      ⟨g.nodes[0], List.getElem?_eq_getElem (by omega)⟩
    have hst : ({ bfs_init g 0 with
        head := if (bfs_init g 0).head + 1 = g.nodes.length then 0
          else (bfs_init g 0).head + 1 } : bfs_state) = bfs_init g 0 := by
      simp [bfs_init, hn]
    rw [bfs_iter_step g k (bfs_init g 0) (by simp [bfs_init]) 0 (by simp [bfs_init, hn]) nd hnd
      (bfs_init g 0) [] (by rw [hst]; exact scan_ev_single g hn nd.out.data) _ _ ih]
    rfl

theorem deq_log_replicate (k i u : Nat) :
    deq_log (List.replicate k (.deq i u)) = List.replicate k (i, u) := by
  induction k with
  | zero => rfl
  | succ k ih => simp [List.replicate_succ, deq_log, ih]

theorem enq_log_replicate (k i u : Nat) : enq_log (List.replicate k (.deq i u)) = [] := by
  induction k with
  | zero => rfl
  | succ k ih => simp [List.replicate_succ, enq_log, ih]

/-- The run of `dg_bfs` up to any pass `k`, on every graph: it has not
failed, the queue cells below some `E ≤ n` hold pairwise different visited
nodes, the log holds exactly the writes of these cells, and every read is
of a cell below `n`. -/
theorem trace_facts (g : dgraph_t) (src_key : gkey_t) (s : Nat)
    (hs : key_to_idx g src_key = (s : Int)) (k : Nat) :
    ∃ st l E, bfs_trace k g src_key = .ok (st, l) ∧ E ≤ g.nodes.length ∧
      st.R.dist.length = g.nodes.length ∧
      (∀ i, i < E → ∃ a, qv st i = some a ∧ dv st a ≠ -1) ∧
      (∀ i j a, i < E → j < E → qv st i = some a → qv st j = some a → i = j) ∧
      enq_log l = (List.range' 0 E).map (enq_entry st) ∧
      (∀ e ∈ deq_log l, e.1 < g.nodes.length) := by
  obtain ⟨_, _, _, hlt⟩ := key_to_idx_of_nat g src_key s hs
  have hneg : ¬ ((s : Int) < 0) := by omega
  by_cases hn : g.nodes.length = 1
  · have hs0 : s = 0 := by omega
    subst hs0
    have hd0 : dv (bfs_init g 0) 0 = 0 := by rw [dv_init g 0 0 hlt, if_pos rfl]
    have hq0 : qv (bfs_init g 0) 0 = some 0 := by rw [qv_init g 0 0 hlt, if_pos rfl]
    refine ⟨bfs_init g 0, .enq 0 0 0 :: List.replicate k (.deq 0 0), 1, ?_, by omega,
      by simp [bfs_init], ?_, ?_, ?_, ?_⟩
    · unfold bfs_trace
      simp only [hs, hneg, if_false, Int.toNat_ofNat, iter_single g hn k]
    · intro i hi
      have : i = 0 := by omega
      subst this
      exact ⟨0, hq0, by rw [hd0]; decide⟩
    · intro i j a hi hj _ _; omega
    · simp only [enq_log, enq_log_replicate, List.range'_one, List.map_cons, List.map_nil,
        enq_entry, qn, hq0, Option.getD_some, hd0]
    · intro e he
      simp only [deq_log, deq_log_replicate] at he
      rw [List.eq_of_mem_replicate he]
      omega
  · have hn2 : 2 ≤ g.nodes.length := by omega
    have hp0 : par_settled s (bfs_init g s) 0 := by
      intro v hv hvs
      rw [dv_init g s v hlt, if_neg hvs] at hv
      exact absurd rfl hv
    obtain ⟨st1, l, E1, D1, hi, hout, _, _, _, _, hdq, henq⟩ :=
      iter_runs k 0 (bfs_init g s) 1 (init_outer g s hlt hn2) hp0
    have hI := hout.inv
    have he0 : enq_entry st1 0 = (0, s, 0) := by
      simp only [enq_entry, qn, hI.q0, Option.getD_some, hI.src_d]
    refine ⟨st1, .enq 0 s 0 :: l, E1, ?_, hI.E_le, hI.len_d, hI.qhist, hI.qinj, ?_, ?_⟩
    · unfold bfs_trace
      simp only [hs, hneg, if_false, Int.toNat_ofNat, hi]
    · simp only [enq_log, henq]
      rw [show E1 = (E1 - 1) + 1 by have := hI.E_pos; omega, List.range'_succ, List.map_cons,
        he0]
      simp
    · intro e he
      simp only [deq_log, hdq, List.mem_map, List.mem_range'_1] at he
      obtain ⟨i, hi2, rfl⟩ := he
      have := hout.D_le
      have := hI.E_le
      simp only [deq_entry]
      omega

/-- C18. At every point of the run of `dg_bfs` (after any number `k` of
passes of the queue loop, on every graph, the one-node graph included) the
run has not failed, no node has been written to the queue twice, at most
`n` writes have been made, every write and every read of the queue used an
index below `n`, and the `dist` entry of every node written to the queue is
still the value written with it; later passes only add to the log. -/
theorem dg_bfs_queue_discipline (g : dgraph_t) (src_key : gkey_t) (s : Nat)
    (hs : key_to_idx g src_key = (s : Int)) (k : Nat) :
    ∃ st l, bfs_trace k g src_key = .ok (st, l) ∧
      dg_bfs k g src_key = (if st.head = st.tail then .ok st.R else .error .out_of_fuel) ∧
      ((enq_log l).map (fun e => e.2.1)).Nodup ∧
      (enq_log l).length ≤ g.nodes.length ∧
      (∀ e ∈ enq_log l, e.1 < g.nodes.length ∧ st.R.dist[e.2.1]? = some e.2.2) ∧
      (∀ e ∈ deq_log l, e.1 < g.nodes.length) ∧
      (∀ m st2 l2, bfs_trace (k + m) g src_key = .ok (st2, l2) → l <+: l2) := by
  obtain ⟨st, l, E, htr, hE, hlen, hq, hinj, henq, hdeq⟩ := trace_facts g src_key s hs k
  have hqn : ∀ i, i < E → qv st i = some (qn st i) ∧ dv st (qn st i) ≠ -1 := by
    intro i hi
    obtain ⟨a, ha, hda⟩ := hq i hi
    have : qn st i = a := by simp only [qn, ha, Option.getD_some]
    rw [this]; exact ⟨ha, hda⟩
  refine ⟨st, l, htr, by rw [dg_bfs_erase, htr], ?_, ?_, ?_, hdeq, ?_⟩
  · rw [henq, List.map_map]
    refine List.Nodup.map_on ?_ (List.nodup_range' 0 E)
    intro i hi j hj hij
    rw [List.mem_range'_1] at hi hj
    simp only [Function.comp, enq_entry] at hij
    have h1 := (hqn i (by omega)).1
    have h2 := (hqn j (by omega)).1
    rw [hij] at h1
    exact hinj i j _ (by omega) (by omega) h1 h2
  · rw [henq, List.length_map, List.length_range']
    exact hE
  · intro e he
    rw [henq, List.mem_map] at he
    obtain ⟨i, hi, rfl⟩ := he
    rw [List.mem_range'_1] at hi
    have hv := (hqn i (by omega)).2
    refine ⟨by simp only [enq_entry]; omega, ?_⟩
    simp only [enq_entry]
    exact getElem?_of_lt_getD _ _ (getD_ne_lt _ _ hv)
  · intro m st2 l2 h2
    exact bfs_trace_grows g src_key k m st st2 l l2 htr h2

/-- C18 on the single-node graph (three passes of the loop that never
exits) and on the graph `0 -> 1` searched from key 0. -/
theorem dg_bfs_queue_discipline_witness :
    (∃ st l, bfs_trace 3 single_graph 7 = .ok (st, l) ∧
      dg_bfs 3 single_graph 7 =
        (if st.head = st.tail then .ok st.R else .error .out_of_fuel) ∧
      ((enq_log l).map (fun e => e.2.1)).Nodup ∧
      (enq_log l).length ≤ single_graph.nodes.length ∧
      (∀ e ∈ enq_log l, e.1 < single_graph.nodes.length ∧ st.R.dist[e.2.1]? = some e.2.2) ∧
      (∀ e ∈ deq_log l, e.1 < single_graph.nodes.length) ∧
      (∀ m st2 l2, bfs_trace (3 + m) single_graph 7 = .ok (st2, l2) → l <+: l2)) ∧
    (∃ st l, bfs_trace 2 edge_graph 0 = .ok (st, l) ∧
      dg_bfs 2 edge_graph 0 =
        (if st.head = st.tail then .ok st.R else .error .out_of_fuel) ∧
      ((enq_log l).map (fun e => e.2.1)).Nodup ∧
      (enq_log l).length ≤ edge_graph.nodes.length ∧
      (∀ e ∈ enq_log l, e.1 < edge_graph.nodes.length ∧ st.R.dist[e.2.1]? = some e.2.2) ∧
      (∀ e ∈ deq_log l, e.1 < edge_graph.nodes.length) ∧
      (∀ m st2 l2, bfs_trace (2 + m) edge_graph 0 = .ok (st2, l2) → l <+: l2)) :=
  ⟨dg_bfs_queue_discipline single_graph 7 0 (by decide) 3,
   dg_bfs_queue_discipline edge_graph 0 0 (by decide) 2⟩

/-- C17. With pairwise distinct keys, at every point of the run of `dg_bfs`
(after any number `k` of passes of the queue loop) every visited node `v`
other than the source has as its `parent` entry a node `p` that has been
taken from the queue and has an edge to `v`, and no node taken from the
queue before `p` has an edge to `v`; with at least two nodes and `k ≥ n`
the state is the one whose arrays `dg_bfs` returns. -/
theorem dg_bfs_first_parent (g : dgraph_t) (src_key : gkey_t) (s : Nat)
    (hd : keys_distinct g) (hs : key_to_idx g src_key = (s : Int)) (k : Nat) :
    ∃ st l, bfs_trace k g src_key = .ok (st, l) ∧
      (2 ≤ g.nodes.length → g.nodes.length ≤ k → dg_bfs k g src_key = .ok st.R) ∧
      ∀ v x, v ≠ s → st.R.dist[v]? = some x → x ≠ -1 →
        ∃ (p i : Nat), st.R.parent[v]? = some (p : Int) ∧
          ((deq_log l).map Prod.snd)[i]? = some p ∧ edge g p v ∧
          ∀ j w, j < i → ((deq_log l).map Prod.snd)[j]? = some w → ¬ edge g w v := by
  obtain ⟨_, _, _, hlt⟩ := key_to_idx_of_nat g src_key s hs
  have hneg : ¬ ((s : Int) < 0) := by omega
  by_cases hn : g.nodes.length = 1
  · have hs0 : s = 0 := by omega
    subst hs0
    refine ⟨bfs_init g 0, .enq 0 0 0 :: List.replicate k (.deq 0 0), ?_, by omega, ?_⟩
    · unfold bfs_trace
      simp only [hs, hneg, if_false, Int.toNat_ofNat, iter_single g hn k]
    · intro v x hv hx _
      have hvl := (List.getElem?_eq_some.mp hx).1
      simp [bfs_init, hn] at hvl
      omega
  · have hn2 : 2 ≤ g.nodes.length := by omega
    have hp0 : par_settled s (bfs_init g s) 0 := by
      intro v hv hvs
      rw [dv_init g s v hlt, if_neg hvs] at hv
      exact absurd rfl hv
    obtain ⟨st1, l, E1, D1, hi, hout, hp, _, _, _, hdq, _⟩ :=
      iter_runs k 0 (bfs_init g s) 1 (init_outer g s hlt hn2) hp0
    have hI := hout.inv
    have htr : bfs_trace k g src_key = .ok (st1, .enq 0 s 0 :: l) := by
      unfold bfs_trace
      simp only [hs, hneg, if_false, Int.toNat_ofNat, hi]
    have hnodes : (deq_log (.enq 0 s 0 :: l)).map Prod.snd = (List.range' 0 D1).map (qn st1) := by
      simp only [deq_log, hdq, List.map_map, Nat.sub_zero]
      rfl
    have hqn : ∀ i, i < E1 → qv st1 i = some (qn st1 i) := by
      intro i hi2
      obtain ⟨a, ha, _⟩ := hI.qhist i hi2
      simp only [qn, ha, Option.getD_some]
    have hDE := hout.D_le
    refine ⟨st1, .enq 0 s 0 :: l, htr, ?_, ?_⟩
    · intro _ hk
      obtain ⟨st2, _, hrun, _⟩ := dg_bfs_runs g src_key s hs hn2 k hk
      have he := dg_bfs_erase g k src_key
      rw [htr] at he
      simp only at he
      by_cases hh : st1.head = st1.tail
      · rw [he, if_pos hh]
      · rw [he, if_neg hh] at hrun
        cases hrun
    · intro v x hvs hx hx1
      have hvis : dv st1 v ≠ -1 := by rw [dv_eq_of_get hx]; exact hx1
      have hvl : v < g.nodes.length := hI.lt_of_visited hvis
      obtain ⟨p, i, hpv, hiE, hqi, hc, _, hfirst⟩ := hI.par v hvis hvs
      obtain ⟨p2, i2, hpv2, hiD, hqi2⟩ := hp v hvis hvs
      have hpp : p2 = p := by rw [hpv] at hpv2; exact_mod_cast hpv2.symm
      subst hpp
      have hii : i2 = i := hI.qinj i2 i p2 (by omega) hiE hqi2 hqi
      subst hii
      have hget : ∀ j, j < D1 → ((deq_log (.enq 0 s 0 :: l)).map Prod.snd)[j]? =
          some (qn st1 j) := by
        intro j hj
        rw [hnodes, List.getElem?_map, List.getElem?_range' 0 1 hj]
        simp
      refine ⟨p2, i2, ?_, ?_, cedge_edge hc, ?_⟩
      · rw [getElem?_of_lt_getD _ _ (by rw [hI.len_p]; exact hvl)]
        exact congrArg some hpv
      · rw [hget i2 hiD]
        have := hqn i2 hiE
        rw [hqi] at this
        exact (Option.some.inj this).symm ▸ rfl
      · intro j w hj hw he
        rw [hget j (by omega)] at hw
        have hqj := hqn j (by omega)
        rw [Option.some.inj hw] at hqj
        exact hfirst j w hj hqj (edge_cedge hd he)

/-- C17 on the graph `0 -> 1` searched from key 0, after two passes. -/
theorem dg_bfs_first_parent_witness :
    ∃ st l, bfs_trace 2 edge_graph 0 = .ok (st, l) ∧
      (2 ≤ edge_graph.nodes.length → edge_graph.nodes.length ≤ 2 →
        dg_bfs 2 edge_graph 0 = .ok st.R) ∧
      ∀ v x, v ≠ 0 → st.R.dist[v]? = some x → x ≠ -1 →
        ∃ (p i : Nat), st.R.parent[v]? = some (p : Int) ∧
          ((deq_log l).map Prod.snd)[i]? = some p ∧ edge edge_graph p v ∧
          ∀ j w, j < i → ((deq_log l).map Prod.snd)[j]? = some w → ¬ edge edge_graph w v :=
  dg_bfs_first_parent edge_graph 0 0 (by decide) (by decide) 2

/-! ## The first-key test of `dg_build_path` -/

/-- With both endpoints present, the empty result of `dg_build_path` comes
from the null-pointer guard alone: the test of the first key never fires. -/
theorem build_path_none_guard (g : dgraph_t) (src_key dst_key : gkey_t)
    (hsrc : has_key g src_key) (hdst : has_key g dst_key) (R : Option bfs_result_t)
    (h : dg_build_path g src_key dst_key R = .ok none) : R = none := by
  obtain ⟨si, nsi, hksi, hnsi, hkey, _⟩ :=
    key_to_idx_some g src_key ((has_key_iff g src_key).mp hsrc)
  have hd0 := (has_key_iff g dst_key).mp hdst
  cases R with
  | none => rfl
  | some R =>
    exfalso
    unfold dg_build_path at h
    have hc : ¬ (key_to_idx g src_key < 0 ∨ key_to_idx g dst_key < 0) := by
      rw [hksi]; omega
    simp only [hc, if_false] at h
    split at h
    · cases h
    · split at h
      · rw [hksi] at h
        simp only [Int.toNat_ofNat, hnsi, List.reverse_append, List.reverse_cons,
          List.reverse_nil, List.nil_append, List.singleton_append, List.head?_cons, hkey,
          ne_eq, not_true_eq_false, if_false] at h
        cases h
      · cases h

/-- C20. For present keys `s_key`, `src_key` and `dst_key`: on a graph of at
least two nodes `dg_build_path g src_key dst_key` on the result of
`dg_bfs g s_key` returns a non-empty sequence of at most `n` keys that
starts with `src_key`; on a graph of exactly one node `dg_bfs` never
returns; and whatever result pointer it is given, `dg_build_path` returns
the empty result only for the null pointer. -/
theorem dg_build_path_first_key (g : dgraph_t) (s_key src_key dst_key : gkey_t)
    (hs : has_key g s_key) (hsrc : has_key g src_key) (hdst : has_key g dst_key) :
    (g.nodes.length = 1 → ∀ fuel, dg_bfs fuel g s_key = .error .out_of_fuel) ∧
    (2 ≤ g.nodes.length → ∀ fuel, g.nodes.length ≤ fuel →
      ∃ (R : bfs_result_t) (ks : List gkey_t), dg_bfs fuel g s_key = .ok R ∧
        dg_build_path g src_key dst_key (some R) = .ok (some (src_key :: ks)) ∧
        (src_key :: ks).length ≤ g.nodes.length) ∧
    (∀ R, dg_build_path g src_key dst_key R = .ok none → R = none) := by
  have h0 := (has_key_iff g s_key).mp hs
  refine ⟨fun hn fuel => dg_bfs_single g hn s_key h0 fuel, ?_,
    build_path_none_guard g src_key dst_key hsrc hdst⟩
  intro hn fuel hf
  obtain ⟨s, _, hks, _, _, _⟩ := key_to_idx_some g s_key h0
  obtain ⟨si, _, hksi, _, _, _⟩ := key_to_idx_some g src_key ((has_key_iff g src_key).mp hsrc)
  obtain ⟨di, _, hkdi, _, _, _⟩ := key_to_idx_some g dst_key ((has_key_iff g dst_key).mp hdst)
  obtain ⟨st, E, hrun, ho⟩ := dg_bfs_runs g s_key s hks hn fuel hf
  obtain ⟨ks, hbp, hlen⟩ := build_path_nonempty ho.final hn src_key dst_key si di hksi hkdi
  exact ⟨st.R, ks, hrun, hbp, by simp only [List.length_cons]; omega⟩

/-- C20 at two inputs: the single-node graph, and the graph with the nodes
0 and 1 and no edge with the search from key 0 and the path from 1 to 0. -/
theorem dg_build_path_first_key_witness :
    (∀ fuel, dg_bfs fuel single_graph 7 = .error .out_of_fuel) ∧
    (∃ (R : bfs_result_t) (ks : List gkey_t), dg_bfs 2 two_graph 0 = .ok R ∧
      dg_build_path two_graph 1 0 (some R) = .ok (some (1 :: ks)) ∧
      (1 :: ks).length ≤ two_graph.nodes.length) ∧
    (∀ R, dg_build_path two_graph 1 0 R = .ok none → R = none) :=
  ⟨(dg_build_path_first_key single_graph 7 7 7 (by decide) (by decide) (by decide)).1
      (by decide),
   (dg_build_path_first_key two_graph 0 1 0 (by decide) (by decide) (by decide)).2.1
      (by decide) 2 (by decide),
   (dg_build_path_first_key two_graph 0 1 0 (by decide) (by decide) (by decide)).2.2⟩

end DGraph
